import Mathlib

/-!
# Verification of the `bodgit/wud` Wii-U disc-image library

A shallow embedding of the Go sources:

* `wux/wux.go`, `wux/reader.go` — the sector-deduplicated "wux" container
  reader (header parsing, sector index table, `ReadAt`);
* the wux writer (`NewWriter` / `Write` / `Close`), which deduplicates
  sectors by digest and patches the index table on close;
* `wud.go` — `OpenReader` (split images), `newPartitionTable`,
  `NewWUD` (FST walk / `file` entries) and the `.app`-emitting part
  of `Extract`.

Files are modelled as total byte functions `Nat → Nat` (every physical
offset holds a byte); machine integers are `Nat` with explicit
`% 2 ^ 32` / masking where Go's fixed-width arithmetic matters.
Cryptographic digests (Go `crypto/sha1`) are abstract parameters
`dg : List Nat → D`: the library uses SHA-1 purely for content
addressing, so theorems that need the digest to separate inputs take
that separation (injectivity on the inputs involved) as a hypothesis.
-/

set_option maxHeartbeats 1000000
set_option maxRecDepth 8000

namespace Wud

/-! ## Byte-level primitives -/

/-- Overwrite the bytes of file `f` starting at position `pos` with the
list `p` (the effect of a `Write` on a seekable file positioned at
`pos`). -/
def writeBytesF (f : Nat → Nat) (pos : Nat) (p : List Nat) : Nat → Nat :=
  fun q => if pos ≤ q ∧ q < pos + p.length then p.getD (q - pos) 0 else f q

/-- The 4 little-endian bytes of a `uint32` value, as written by Go
`binary.Write(..., binary.LittleEndian, ...)`. -/
def u32leBytes (v : Nat) : List Nat :=
  [v % 256, v / 256 % 256, v / 65536 % 256, v / 16777216 % 256]

/-- The 8 little-endian bytes of a `uint64` value. -/
def u64leBytes (v : Nat) : List Nat :=
  [v % 256, v / 2 ^ 8 % 256, v / 2 ^ 16 % 256, v / 2 ^ 24 % 256,
   v / 2 ^ 32 % 256, v / 2 ^ 40 % 256, v / 2 ^ 48 % 256, v / 2 ^ 56 % 256]

/-- Decode the little-endian `uint32` stored in file `f` at offset `q`
(Go `binary.Read(..., binary.LittleEndian, &u32)`). -/
def readU32LE (f : Nat → Nat) (q : Nat) : Nat :=
  f q + 256 * f (q + 1) + 65536 * f (q + 2) + 16777216 * f (q + 3)

/-- Decode the little-endian `uint64` stored in file `f` at offset `q`. -/
def readU64LE (f : Nat → Nat) (q : Nat) : Nat :=
  f q + 2 ^ 8 * f (q + 1) + 2 ^ 16 * f (q + 2) + 2 ^ 24 * f (q + 3) +
    2 ^ 32 * f (q + 4) + 2 ^ 40 * f (q + 5) + 2 ^ 48 * f (q + 6) +
    2 ^ 56 * f (q + 7)

/-- Decode the big-endian `uint32` stored in the first four entries of a
byte list (Go `binary.Read(..., binary.BigEndian, &u32)` on a stream). -/
def beU32 (l : List Nat) : Nat :=
  16777216 * l.getD 0 0 + 65536 * l.getD 1 0 + 256 * l.getD 2 0 + l.getD 3 0

/-- The 8 big-endian bytes of a `uint64` value, as put by Go
`binary.BigEndian.PutUint64`. -/
def u64beBytes (v : Nat) : List Nat :=
  [v / 2 ^ 56 % 256, v / 2 ^ 48 % 256, v / 2 ^ 40 % 256, v / 2 ^ 32 % 256,
   v / 2 ^ 24 % 256, v / 2 ^ 16 % 256, v / 2 ^ 8 % 256, v % 256]

/-! ## Constants (`wud.go`, `wux/wux.go`) -/

/-- `SectorSize` for Wii-U disc images (`wud.go`). -/
def SECTOR_SIZE : Nat := 0x8000

/-- `UncompressedSize` for Wii-U disc images (`wud.go`). -/
def UNCOMPRESSED_SIZE : Nat := 25025314816

/-- First wux magic word, little-endian u32 "WUX0" (`wux/wux.go`). -/
def wuxMagic0 : Nat := 0x30585557

/-- Second wux magic word (`wux/wux.go`). -/
def wuxMagic1 : Nat := 0x1099d02e

/-- `unsafe.Sizeof(header{})` for the wux header struct: two u32 magic
words, u32 sectorSize, 4 pad bytes, u64 uncompressedSize, u32 flags,
4 pad bytes = 32 bytes. -/
def wuxHeaderSize : Nat := 32

/-! ## Wux reader (`wux/reader.go`) -/

/-- Errors surfaced by `wux.NewReader`: the distinct `ErrBadMagic`
variable, and the anonymous "wux: bad sector size" error. -/
inductive WuxErr where
  | badMagic
  | badSectorSize
  deriving DecidableEq

/-- The fields of the `reader` struct built by `wux.NewReader`. -/
structure WuxReaderS where
  base : Nat
  limit : Nat
  sectorSize : Nat
  table : List Nat
  deriving DecidableEq

/-- Start of the sector payload region:
`(headerSize + tableSize<<2 + sectorSize - 1) & (-sectorSize)` on int64.
The same expression appears verbatim in `wux.NewReader` and in the wux
`NewWriter`; for a non-negative int64 operand the bitwise AND with
`-sectorSize` is `Nat.land` with the 64-bit two's-complement pattern
`2 ^ 64 - sectorSize`. -/
def sectorBase (ss tableSize : Nat) : Nat :=
  Nat.land (wuxHeaderSize + tableSize * 4 + ss - 1) (2 ^ 64 - ss)

/-- `wux.NewReader` on a file `f` (a total byte function: transport/IO
failures are not modelled, so only the header validation can fail).
Reads the little-endian header, checks the magic words, checks the
sector size, then reads `ceil(uncompressedSize / sectorSize)` table
entries located right after the 32-byte header. -/
def NewReaderF (f : Nat → Nat) : Except WuxErr WuxReaderS :=
  let m0 := readU32LE f 0
  let m1 := readU32LE f 4
  let ss := readU32LE f 8
  let size := readU64LE f 16
  if m0 = wuxMagic0 ∧ m1 = wuxMagic1 then
    if ss < 0x100 ∨ 0x10000000 ≤ ss then Except.error WuxErr.badSectorSize
    else
      let tableSize := (size + ss - 1) / ss
      Except.ok
        { base := sectorBase ss tableSize
          limit := size
          sectorSize := ss
          table := (List.range tableSize).map
            (fun i => readU32LE f (wuxHeaderSize + 4 * i)) }
  else Except.error WuxErr.badMagic

/-- The byte-gathering loop of `reader.newSizeReaderAt`: while `l > 0`
bytes remain, serve `min(sectorSize - off % sectorSize, l)` bytes from
the physical position `base + table[off / sectorSize]*sectorSize +
off % sectorSize` and advance.  (The source indexes `r.table`
directly; out-of-range indices are modelled with default `0`.) -/
def gatherBytes (f : Nat → Nat) (r : WuxReaderS) (l off : Nat) : List Nat :=
  if h : 0 < l ∧ 0 < r.sectorSize then
    let sectorOffset := off % r.sectorSize
    let sectorIndex := off / r.sectorSize
    let lim := min (r.sectorSize - sectorOffset) l
    (List.range lim).map
        (fun j => f (r.base + r.table.getD sectorIndex 0 * r.sectorSize +
          sectorOffset + j)) ++
      gatherBytes f r (l - lim) (off + lim)
  else []
termination_by l
decreasing_by
  have h1 : 0 < r.sectorSize - off % r.sectorSize :=
    Nat.sub_pos_of_lt (Nat.mod_lt off h.2)
  omega

/-- `reader.ReadAt` with a buffer of length `plen` at (int64) offset
`off`: negative offsets and offsets at or past `limit` yield
`(0, io.EOF)`; a read that starts in range but would cross `limit` is
truncated to `limit - off` bytes and also carries `io.EOF`.  The result
models Go's `(n, err)` as the bytes actually delivered plus the error. -/
def wuxReadAt (f : Nat → Nat) (r : WuxReaderS) (plen : Nat) (off : Int) :
    List Nat × Option String :=
  if off < 0 ∨ (r.limit : Int) ≤ off then ([], some "EOF")
  else
    let o := off.toNat
    if r.limit - o < plen then (gatherBytes f r (r.limit - o) o, some "EOF")
    else (gatherBytes f r plen o, none)

/-! ## Wux writer (wux `writer.go`) -/

/-- The fields of the wux `writer` struct.  `file`/`pos`/`broken` model
the underlying `io.WriteSeeker` (`broken` injects a write failure of the
sink); `m` is the SHA-1 dedup map as an association list keyed by the
abstract digest type `D`; `table` collects the filled prefix of the
preallocated sector index table (the source tracks the fill point with
`w.sector`, which equals `table.length` here). -/
structure WuxWriterS (D : Type) where
  file : Nat → Nat
  pos : Nat
  buf : List Nat
  m : List (D × Nat)
  off : Nat
  limit : Nat
  sectorSize : Nat
  unique : Nat
  table : List Nat
  err : Option String
  broken : Bool

/-- The 32-byte wux header as written by `NewWriter` via
`binary.Write(w.w, binary.LittleEndian, &h)` onto a fresh file
(unwritten bytes are zero; Go zero-fills the padding fields). -/
def wuxHeaderFile (ss size : Nat) : Nat → Nat :=
  writeBytesF
    (writeBytesF
      (writeBytesF
        (writeBytesF
          (writeBytesF
            (writeBytesF
              (writeBytesF (fun _ => 0) 0 (u32leBytes wuxMagic0))
              4 (u32leBytes wuxMagic1))
            8 (u32leBytes ss))
          12 (u32leBytes 0))
        16 (u64leBytes size))
      24 (u32leBytes 0))
    28 (u32leBytes 0)

/-- `wux.NewWriter ws sectorSize uncompressedSize`: seek to 0, write
the header, compute `tableSize` and the sector-data base, and seek
there.  `broken` is the sink's failure switch (false for a healthy
sink). -/
def NewWriterM (D : Type) (ss size : Nat) (broken : Bool) : WuxWriterS D :=
  { file := wuxHeaderFile ss size
    pos := sectorBase ss ((size + ss - 1) / ss)
    buf := []
    m := []
    off := 0
    limit := size
    sectorSize := ss
    unique := 0
    table := []
    err := none
    broken := broken }

/-- The sector-flushing loop inside `writer.Write`: while a full sector
is buffered, digest it, look the digest up in the dedup map, assign the
next `unique` index to unseen digests, record the index in the table,
and append the sector's bytes to the sink exactly when the digest was
new (`io.CopyN` to the sink, or to `ioutil.Discard` for duplicates).
A sink failure (`broken`) latches `w.err` after the map/table updates,
as in the source, where `io.CopyN` runs after those updates. -/
def flushW {D : Type} [DecidableEq D] (dg : List Nat → D)
    (st : WuxWriterS D) : WuxWriterS D :=
  if h : 0 < st.sectorSize ∧ st.sectorSize ≤ st.buf.length then
    let s := st.buf.take st.sectorSize
    match st.m.lookup (dg s) with
    | some v =>
        flushW dg { st with
          buf := st.buf.drop st.sectorSize
          table := st.table ++ [v] }
    | none =>
        let st1 := { st with
          m := (dg s, st.unique) :: st.m
          unique := st.unique + 1
          table := st.table ++ [st.unique] }
        if st.broken then { st1 with err := some "wux: write error" }
        else
          flushW dg { st1 with
            file := writeBytesF st1.file st1.pos s
            pos := st1.pos + st.sectorSize
            buf := st.buf.drop st.sectorSize }
  else st
termination_by st.buf.length
decreasing_by
  all_goals simp only [List.length_drop]
  all_goals omega

/-- `writer.Write`: return the latched error if set; otherwise append
`p` to the buffer, count the bytes, and flush whole sectors.  Returns
Go's `(n, err)` pair together with the successor state. -/
def writeW {D : Type} [DecidableEq D] (dg : List Nat → D)
    (st : WuxWriterS D) (p : List Nat) :
    (Nat × Option String) × WuxWriterS D :=
  match st.err with
  | some e => ((0, some e), st)
  | none =>
      let st2 := flushW dg { st with
        buf := st.buf ++ p
        off := st.off + p.length }
      ((p.length, st2.err), st2)

/-- Little-endian serialization of the sector index table, as written
by `binary.Write(w.w, binary.LittleEndian, &w.table)`. -/
def tableBytes (t : List Nat) : List Nat := t.flatMap u32leBytes

/-- `writer.Close`: propagate a latched error; fail unless the buffer
is empty and exactly `uncompressedSize` bytes were accepted; then seek
to `headerSize` and write the table little-endian (a broken sink makes
that write fail).  On success the final file contents are returned. -/
def closeW {D : Type} (st : WuxWriterS D) : Except String (Nat → Nat) :=
  match st.err with
  | some e => Except.error e
  | none =>
      if st.buf.length ≠ 0 ∨ st.off ≠ st.limit then
        Except.error "wux: not enough data written"
      else if st.broken then Except.error "wux: write error"
      else Except.ok (writeBytesF st.file wuxHeaderSize (tableBytes st.table))

/-- Split `l` into consecutive chunks of length `ss` (any final short
remainder is not a chunk: it stays in the writer's buffer). -/
def toSectors (ss : Nat) (l : List Nat) : List (List Nat) :=
  if h : 0 < ss ∧ ss ≤ l.length then l.take ss :: toSectors ss (l.drop ss)
  else []
termination_by l.length
decreasing_by
  simp only [List.length_drop]
  omega

/-- The `ss` bytes of sector slot `v` of the payload region starting at
`base` in file `f`. -/
def fileSector (f : Nat → Nat) (base ss v : Nat) : List Nat :=
  (List.range ss).map (fun r => f (base + v * ss + r))

/-- The bytes left in the writer's buffer after the flushing loop has
consumed every whole sector. -/
def sectorsRem (ss : Nat) (l : List Nat) : List Nat :=
  if h : 0 < ss ∧ ss ≤ l.length then sectorsRem ss (l.drop ss) else l
termination_by l.length
decreasing_by
  simp only [List.length_drop]
  omega

/-- Invariant of the wux writer relative to the payload base `base`,
the sector size `ss`, the digest `dg` and the ghost list `done` of
sectors flushed so far: the sink position sits right after the
`unique` emitted payload slots, the dedup map is exactly the
digest-indexed inventory of those slots, and every filled table entry
points its flushed sector at the payload slot holding that sector's
bytes. -/
structure WInv {D : Type} (dg : List Nat → D) (base ss : Nat)
    (st : WuxWriterS D) (done : List (List Nat)) : Prop where
  hss : st.sectorSize = ss
  hbroken : st.broken = false
  herr : st.err = none
  hpos : st.pos = base + ss * st.unique
  huniq : st.unique ≤ st.table.length
  hmlt : ∀ d v, (d, v) ∈ st.m → v < st.unique
  hmdg : ∀ d v, (d, v) ∈ st.m → dg (fileSector st.file base ss v) = d
  hmfull : ∀ v, v < st.unique → (dg (fileSector st.file base ss v), v) ∈ st.m
  htlen : st.table.length = done.length
  hdlen : ∀ s, s ∈ done → s.length = ss
  htab : ∀ j, j < done.length → ∃ v, st.table[j]? = some v ∧
    v < st.unique ∧ fileSector st.file base ss v = done.getD j []

/-! ## Split images (`OpenReader` in `wud.go`) -/

/-- `fmt.Sprintf("%s%d%s", "game_part", i, ".wud")`. -/
def multipartName (i : Nat) : String := "game_part" ++ Nat.repr i ++ ".wud"

/-- The probing loop of `OpenReader`: open `game_part2.wud`,
`game_part3.wud`, ... until a file does not exist.  `files` maps a
basename to the byte contents of an existing file; `fuel` bounds the
loop (any fuel at least the number of existing parts is exact). -/
def collectParts (files : String → Option (List Nat)) :
    Nat → Nat → List (List Nat)
  | 0, _ => []
  | fuel + 1, i =>
    match files (multipartName i) with
    | none => []
    | some c => c :: collectParts files fuel (i + 1)

/-- The reader built by `OpenReader`: the ordered fragment contents
backing the `readerutil.NewMultiReaderAt`. -/
structure SplitReaderS where
  parts : List (List Nat)
  deriving DecidableEq

/-- `reader.Size`: the multi-reader's size is the sum of the fragment
sizes. -/
def SplitReaderS.size (r : SplitReaderS) : Nat := (r.parts.map List.length).sum

/-- Modelled from the spec: `readerutil.NewMultiReaderAt` (go4.org
dependency, outside this repository) serves `read_at` by locating the
owning fragment through a prefix-sum table; a single-byte read at `off`
descends the fragments in index order. -/
def multiReadAt1 : List (List Nat) → Nat → Option Nat
  | [], _ => none
  | p :: ps, off => if off < p.length then p.get? off else multiReadAt1 ps (off - p.length)

/-- Single-byte `ReadAt` of the split reader. -/
def SplitReaderS.readAt1 (r : SplitReaderS) (off : Nat) : Option Nat :=
  multiReadAt1 r.parts off

/-- `wud.OpenReader` on basename `name` (the model takes the basename
directly; the claim quantifies over basenames).  If `name` is exactly
`game_part1.wud`, the sibling fragments are collected in index order;
otherwise the single file backs the reader. -/
def OpenReaderM (files : String → Option (List Nat)) (fuel : Nat)
    (name : String) : Option SplitReaderS :=
  match files name with
  | none => none
  | some c =>
    if name = multipartName 1 then some ⟨c :: collectParts files fuel 2⟩
    else some ⟨[c]⟩

/-! ## Partition table (`newPartitionTable` in `wud.go`) -/

/-- Failures of `newPartitionTable`: a short stream (binary.Read /
io.CopyN), the "wud: bad magic" error, and the "wud: bad TOC checksum"
error. -/
inductive PtErr where
  | ioErr
  | badMagic
  | badChecksum
  deriving DecidableEq

/-- `bytes.TrimRight(name, "\x00")`: drop trailing zero bytes. -/
def trimTrailingZeros (l : List Nat) : List Nat :=
  (l.reverse.dropWhile (fun b => b == 0)).reverse

/-- `newPartitionTable` over the decrypted sector bytes, parametrized
by the digest function `H` (Go `crypto/sha1` — the stream from offset
`0x800` to the end is what gets teed into the running hash).  Parses
the 44-byte big-endian header `magic u32, 4 pad, sha1 [20],
numPartitions u32` (struct size 32), skips to `0x800`, reads the
128-byte partition records, drains the remainder, and compares the
digest of everything after `0x800` with the stored checksum. -/
def newPartitionTable (H : List Nat → List Nat) (sector : List Nat) :
    Except PtErr (List (List Nat × Nat)) :=
  if sector.length < 32 then Except.error PtErr.ioErr
  else
    let magicV := beU32 (sector.take 4)
    let checksum := (sector.drop 8).take 20
    let numPartitions := beU32 (sector.drop 28)
    if magicV ≠ 0xcca6e67b then Except.error PtErr.badMagic
    else if sector.length < 0x800 then Except.error PtErr.ioErr
    else
      let body := sector.drop 0x800
      if body.length < 128 * numPartitions then Except.error PtErr.ioErr
      else
        let entries := (List.range numPartitions).map (fun i =>
          (trimTrailingZeros ((body.drop (128 * i)).take 0x1f),
           beU32 (body.drop (128 * i + 0x20)) * SECTOR_SIZE))
        if H body ≠ checksum then Except.error PtErr.badChecksum
        else Except.ok entries

/-! ## FST file entries (`NewWUD` in `wud.go`) -/

/-- `fe.Offset * fh.FileOffsetFactor`: a `uint32 * uint32`
multiplication, which wraps modulo `2 ^ 32` before the result is
widened to int64 / uint64. -/
def fileOffsetMul (eoff factor : Nat) : Nat := eoff * factor % 2 ^ 32

/-- The `file` struct recorded for an accepted FST file entry. -/
structure FileEntryM where
  iv : List Nat
  offset : Nat
  size : Nat
  deriving DecidableEq

/-- Construction of a `file` entry during the FST walk:
`offset = si + 2*SectorSize + int64(fe.Offset*fh.FileOffsetFactor)`,
`size = int64(fe.Size)`, and a 16-byte IV that is zero except for
`binary.BigEndian.PutUint64(iv[8:], uint64(fe.Offset*fh.FileOffsetFactor>>16))`
(both `*` and `>>` are uint32 operations of equal precedence in Go,
associating left). -/
def mkFileEntry (si eoff factor esize : Nat) : FileEntryM :=
  { iv := List.replicate 8 0 ++ u64beBytes (fileOffsetMul eoff factor >>> 16)
    offset := si + 2 * SECTOR_SIZE + fileOffsetMul eoff factor
    size := esize }

/-! ## Extract: lengths of the emitted `.app` files (`WUD.Extract`) -/

/-- A parsed TMD content record `{id u32, index u16, type u16,
size u64}` (the SHA-256 field is irrelevant to the length claims). -/
structure TmdContent where
  id : Nat
  index : Nat
  type : Nat
  size : Nat
  deriving DecidableEq

/-- `(int(size) + tik.BlockSize() - 1) & (-tik.BlockSize())` with the
AES block size 16: round up to the next multiple of 16 via the int64
bitmask. -/
def blockRound16 (n : Nat) : Nat := Nat.land (n + 15) (2 ^ 64 - 16)

/-- Bytes obtainable from `io.NewSectionReader(r, off, n)` over a disc
of `discSize` bytes: `io.Copy` style draining stops at the underlying
EOF without error. -/
def sectionAvail (discSize off n : Nat) : Nat := min n (discSize - min off discSize)

/-- The byte lengths of the `<id>.app` files written by a *successful*
run of `WUD.Extract`, in content order; `none` when extraction aborts
before the per-content writes.  Content 0 is produced by teeing the
section reader of `blockRound16(contents[0].size)` bytes at
`gm + SectorSize` into the file while the CBC reader drains it, so
every byte the section yields is written; but after the tee the code
must read `0x20` bytes plus `contentCount` 32-byte app records from
that same CBC stream, so if the stream yields fewer than
`0x20 + 32*contentCount` bytes the `io.CopyN`/`binary.Read` fails and
`Extract` returns the error without writing any index `≥ 1` file.
(An empty content list would make the source's `contents[0]` index
panic, so it admits no successful extraction either.)  Content `i ≥ 1`
is `io.Copy` of the section of `contents[i].size` bytes at
`gm + app[i].offset * SectorSize` (`appOffsets` are the `offset`
fields of the parsed app records). -/
def extractAppLens (discSize gm : Nat) (contents : List TmdContent)
    (appOffsets : List Nat) : Option (List Nat) :=
  match contents with
  | [] => none
  | c0 :: rest =>
    let avail := sectionAvail discSize (gm + SECTOR_SIZE) (blockRound16 c0.size)
    if avail < 0x20 + 32 * (rest.length + 1) then none
    else some (avail ::
      (rest.zip (appOffsets.drop 1)).map
        (fun co => sectionAvail discSize (gm + co.2 * SECTOR_SIZE) co.1.size))

/-! ## Concrete instances used to witness the theorems -/

/-- A directory with the two fragments `game_part1.wud` (bytes 1, 2)
and `game_part2.wud` (byte 3). -/
def exampleFiles : String → Option (List Nat) :=
  fun s =>
    if s = "game_part1.wud" then some [1, 2]
    else if s = "game_part2.wud" then some [3]
    else none

/-- A minimal partition-table sector: the big-endian magic
`0xCCA6E67B`, an all-zero checksum field, zero partitions, zero-padded
to `0x800` bytes (so the hashed tail is empty). -/
def exampleSector : List Nat :=
  [0xcc, 0xa6, 0xe6, 0x7b] ++ List.replicate 2044 0

/-- A stand-in digest function whose value on the empty tail matches
`exampleSector`'s stored checksum. -/
def zeroDigest : List Nat → List Nat := fun _ => List.replicate 20 0

/-- A writer state ready to close: empty buffer, all bytes accepted,
one table slot filled. -/
def exampleWriter : WuxWriterS Unit :=
  { file := fun _ => 0
    pos := 0x8000
    buf := []
    m := [((), 0)]
    off := 0x8000
    limit := 0x8000
    sectorSize := 0x8000
    unique := 1
    table := [0]
    err := none
    broken := false }

/-- A writer state whose previous `Write` failed: the error is latched. -/
def exampleBrokenWriter : WuxWriterS Unit :=
  { exampleWriter with err := some "wux: write error", broken := true }

theorem writeBytesF_get_inside (f : Nat → Nat) (pos : Nat) (p : List Nat)
    (j : Nat) (hj : j < p.length) :
    writeBytesF f pos p (pos + j) = p.getD j 0 := by
  unfold writeBytesF
  rw [if_pos]
  · simp
  · omega

theorem writeBytesF_get_left (f : Nat → Nat) (pos : Nat) (p : List Nat)
    (q : Nat) (hq : q < pos) : writeBytesF f pos p q = f q := by
  unfold writeBytesF
  rw [if_neg]
  omega

theorem writeBytesF_get_right (f : Nat → Nat) (pos : Nat) (p : List Nat)
    (q : Nat) (hq : pos + p.length ≤ q) : writeBytesF f pos p q = f q := by
  unfold writeBytesF
  rw [if_neg]
  omega

@[simp] theorem u32leBytes_length (v : Nat) : (u32leBytes v).length = 4 := rfl

@[simp] theorem u64leBytes_length (v : Nat) : (u64leBytes v).length = 8 := rfl

@[simp] theorem u64beBytes_length (v : Nat) : (u64beBytes v).length = 8 := rfl

/-- Writing a `uint32` little-endian and reading it back round-trips. -/
theorem readU32LE_writeBytesF_u32le (f : Nat → Nat) (pos v : Nat)
    (hv : v < 2 ^ 32) :
    readU32LE (writeBytesF f pos (u32leBytes v)) pos = v := by
  unfold readU32LE
  have h0 := writeBytesF_get_inside f pos (u32leBytes v) 0 (by simp)
  have h1 := writeBytesF_get_inside f pos (u32leBytes v) 1 (by simp)
  have h2 := writeBytesF_get_inside f pos (u32leBytes v) 2 (by simp)
  have h3 := writeBytesF_get_inside f pos (u32leBytes v) 3 (by simp)
  have h0' : writeBytesF f pos (u32leBytes v) pos = (u32leBytes v).getD 0 0 := h0
  rw [h0', h1, h2, h3]
  simp only [u32leBytes, List.getD_cons_zero, List.getD_cons_succ]
  omega

/-- Writing a `uint64` little-endian and reading it back round-trips. -/
theorem readU64LE_writeBytesF_u64le (f : Nat → Nat) (pos v : Nat)
    (hv : v < 2 ^ 64) :
    readU64LE (writeBytesF f pos (u64leBytes v)) pos = v := by
  unfold readU64LE
  have h0 := writeBytesF_get_inside f pos (u64leBytes v) 0 (by simp)
  have h1 := writeBytesF_get_inside f pos (u64leBytes v) 1 (by simp)
  have h2 := writeBytesF_get_inside f pos (u64leBytes v) 2 (by simp)
  have h3 := writeBytesF_get_inside f pos (u64leBytes v) 3 (by simp)
  have h4 := writeBytesF_get_inside f pos (u64leBytes v) 4 (by simp)
  have h5 := writeBytesF_get_inside f pos (u64leBytes v) 5 (by simp)
  have h6 := writeBytesF_get_inside f pos (u64leBytes v) 6 (by simp)
  have h7 := writeBytesF_get_inside f pos (u64leBytes v) 7 (by simp)
  have h0' : writeBytesF f pos (u64leBytes v) pos = (u64leBytes v).getD 0 0 := h0
  rw [h0', h1, h2, h3, h4, h5, h6, h7]
  simp only [u64leBytes, List.getD_cons_zero, List.getD_cons_succ]
  omega

/-- `readU32LE` only looks at bytes `q`..`q+3`; agreeing files give the
same value. -/
theorem readU32LE_congr (f g : Nat → Nat) (q : Nat)
    (h : ∀ j, j < 4 → f (q + j) = g (q + j)) :
    readU32LE f q = readU32LE g q := by
  unfold readU32LE
  have h0 := h 0 (by omega)
  have h1 := h 1 (by omega)
  have h2 := h 2 (by omega)
  have h3 := h 3 (by omega)
  have h0' : f q = g q := h0
  rw [h0', h1, h2, h3]

theorem readU64LE_congr (f g : Nat → Nat) (q : Nat)
    (h : ∀ j, j < 8 → f (q + j) = g (q + j)) :
    readU64LE f q = readU64LE g q := by
  unfold readU64LE
  have h0 := h 0 (by omega)
  have h1 := h 1 (by omega)
  have h2 := h 2 (by omega)
  have h3 := h 3 (by omega)
  have h4 := h 4 (by omega)
  have h5 := h 5 (by omega)
  have h6 := h 6 (by omega)
  have h7 := h 7 (by omega)
  have h0' : f q = g q := h0
  rw [h0', h1, h2, h3, h4, h5, h6, h7]

/-! ## The int64 `& (-sectorSize)` mask

Both `wux/reader.go` and the wux writer compute the start of the sector
payload region as

  `(headerSize + tableSize<<2 + sectorSize - 1) & (-sectorSize)`

on `int64`.  For a non-negative `int64` value `x` and `0 < s < 2 ^ 32`
this bitwise AND equals `Nat.land x (2 ^ 64 - s)` (the two's complement
pattern of `-s` in 64 bits). -/

/-- Bits of the 64-bit two's-complement mask of `-2^k`: set exactly on
positions `k ≤ i < 64`. -/
theorem testBit_mask_two_pow (k i : Nat) (hk : k ≤ 64) :
    (2 ^ 64 - 2 ^ k).testBit i = (decide (k ≤ i) && decide (i < 64)) := by
  have hrw : 2 ^ 64 - 2 ^ k = (2 ^ (64 - k) - 1) <<< k := by
    rw [Nat.shiftLeft_eq, Nat.sub_mul, one_mul, ← pow_add]
    rw [Nat.sub_add_cancel hk]
  rw [hrw, Nat.testBit_shiftLeft, Nat.testBit_two_pow_sub_one]
  rcases Nat.lt_or_ge i k with h | h
  · have l1 : decide (i ≥ k) = false := by
      simp only [ge_iff_le, decide_eq_false_iff_not]
      omega
    rw [l1]
    simp only [Bool.false_and]
  · have l1 : decide (i ≥ k) = true := by
      simp only [ge_iff_le, decide_eq_true_eq]
      omega
    rw [l1]
    simp only [Bool.true_and]
    rw [decide_eq_decide]
    omega

/-- Dividing by `2^k` shifts the bits down. -/
theorem testBit_div_pow (x k i : Nat) :
    (x / 2 ^ k).testBit i = x.testBit (k + i) := by
  rw [Nat.testBit_to_div_mod, Nat.testBit_to_div_mod,
    Nat.div_div_eq_div_mul, ← pow_add]

/-- For `x < 2 ^ 64` and `k ≤ 64`, masking with the 64-bit pattern of
`-2^k` clears the low `k` bits: it equals `2 ^ k * (x / 2 ^ k)`. -/
theorem land_mask_eq_div_mul (x k : Nat) (hx : x < 2 ^ 64) (hk : k ≤ 64) :
    Nat.land x (2 ^ 64 - 2 ^ k) = 2 ^ k * (x / 2 ^ k) := by
  apply Nat.eq_of_testBit_eq
  intro i
  have hland : (Nat.land x (2 ^ 64 - 2 ^ k)).testBit i =
      (x.testBit i && (2 ^ 64 - 2 ^ k).testBit i) := Nat.testBit_land x _ i
  rw [hland, testBit_mask_two_pow k i hk]
  have hmul : 2 ^ k * (x / 2 ^ k) = (x / 2 ^ k) <<< k := by
    rw [Nat.shiftLeft_eq, Nat.mul_comm]
  rw [hmul, Nat.testBit_shiftLeft]
  rcases Nat.lt_or_ge i k with h | h
  · have l1 : decide (i ≥ k) = false := by
      simp only [ge_iff_le, decide_eq_false_iff_not]
      omega
    rw [l1]
    simp only [Bool.false_and, Bool.and_false]
  · have l1 : decide (i ≥ k) = true := by
      simp only [ge_iff_le, decide_eq_true_eq]
      omega
    rw [l1]
    simp only [Bool.true_and]
    rw [testBit_div_pow]
    rcases Nat.lt_or_ge i 64 with h64 | h64
    · have : k + (i - k) = i := by omega
      rw [this]
      simp [h64]
    · have hxi : x.testBit i = false :=
        Nat.testBit_lt_two_pow (lt_of_lt_of_le hx (Nat.pow_le_pow_right (by omega) h64))
      have hxi' : x.testBit (k + (i - k)) = false := by
        have : k + (i - k) = i := by omega
        rw [this, hxi]
      simp [hxi, hxi', Nat.not_lt.mpr h64]

/-! ## C10: `ReadAt` at negative offsets -/

/-- C10: for every wux reader and every negative offset, `ReadAt`
returns `(0, io.EOF)` — the same result as a read at or past
`uncompressedSize` — and the underlying source is never consulted (the
result is independent of the file contents). -/
theorem claim_C10_negative_offset_eof (f : Nat → Nat) (r : WuxReaderS)
    (plen : Nat) (off : Int) (hoff : off < 0) :
    wuxReadAt f r plen off = ([], some "EOF") ∧
      wuxReadAt f r plen off = wuxReadAt f r plen (r.limit : Int) ∧
      ∀ g, wuxReadAt g r plen off = ([], some "EOF") := by
  have hcond : off < 0 ∨ (r.limit : Int) ≤ off := Or.inl hoff
  have hlim : ((r.limit : Int) < 0 ∨ (r.limit : Int) ≤ (r.limit : Int)) :=
    Or.inr le_rfl
  refine ⟨?_, ?_, fun g => ?_⟩
  · unfold wuxReadAt
    rw [if_pos hcond]
  · unfold wuxReadAt
    rw [if_pos hcond, if_pos hlim]
  · unfold wuxReadAt
    rw [if_pos hcond]

theorem claim_C10_negative_offset_eof_witness :
    wuxReadAt (fun _ => 0) ⟨0, 7, 0, []⟩ 3 (-1) = ([], some "EOF") :=
  (claim_C10_negative_offset_eof (fun _ => 0) ⟨0, 7, 0, []⟩ 3 (-1) (by decide)).1

/-! ## C3: `wux.NewReader` error conditions -/

/-- C3: the wux reader constructor fails with the distinct
`ErrBadMagic` exactly when the first two little-endian u32 words differ
from `0x30585557` and `0x1099D02E`; with correct magic it fails with a
different error exactly when `sectorSize < 0x100` or
`sectorSize >= 0x10000000`.  (IO/transport failures are outside the
model: the input is a total byte function.) -/
theorem claim_C3_constructor_errors (f : Nat → Nat) :
    (NewReaderF f = Except.error WuxErr.badMagic ↔
        ¬(readU32LE f 0 = 0x30585557 ∧ readU32LE f 4 = 0x1099d02e)) ∧
      ((readU32LE f 0 = 0x30585557 ∧ readU32LE f 4 = 0x1099d02e) →
        ((∃ e, NewReaderF f = Except.error e ∧ e ≠ WuxErr.badMagic) ↔
          (readU32LE f 8 < 0x100 ∨ 0x10000000 ≤ readU32LE f 8))) := by
  by_cases hm : readU32LE f 0 = 0x30585557 ∧ readU32LE f 4 = 0x1099d02e
  · by_cases hs : readU32LE f 8 < 0x100 ∨ 0x10000000 ≤ readU32LE f 8
    · have hval : NewReaderF f = Except.error WuxErr.badSectorSize := by
        unfold NewReaderF
        simp only [wuxMagic0, wuxMagic1]
        rw [if_pos hm, if_pos hs]
      rw [hval]
      constructor
      · simp [hm]
      · intro _
        constructor
        · intro _
          exact hs
        · intro _
          exact ⟨WuxErr.badSectorSize, rfl, by simp⟩
    · have hval : NewReaderF f = Except.ok
          { base := sectorBase (readU32LE f 8)
              ((readU64LE f 16 + readU32LE f 8 - 1) / readU32LE f 8)
            limit := readU64LE f 16
            sectorSize := readU32LE f 8
            table := (List.range
                ((readU64LE f 16 + readU32LE f 8 - 1) / readU32LE f 8)).map
              (fun i => readU32LE f (wuxHeaderSize + 4 * i)) } := by
        unfold NewReaderF
        simp only [wuxMagic0, wuxMagic1]
        rw [if_pos hm, if_neg hs]
      rw [hval]
      constructor
      · simp [hm]
      · intro _
        constructor
        · rintro ⟨e, he, -⟩
          cases he
        · intro h
          exact absurd h hs
  · have hval : NewReaderF f = Except.error WuxErr.badMagic := by
      unfold NewReaderF
      simp only [wuxMagic0, wuxMagic1]
      rw [if_neg hm]
    rw [hval]
    constructor
    · simp [hm]
    · intro h
      exact absurd h hm

theorem claim_C3_constructor_errors_witness :
    NewReaderF (fun _ => 0) = Except.error WuxErr.badMagic ∧
      (∃ e, NewReaderF (wuxHeaderFile 0 0) = Except.error e ∧
        e ≠ WuxErr.badMagic) := by
  constructor
  · exact (claim_C3_constructor_errors (fun _ => 0)).1.mpr (by decide)
  · exact ((claim_C3_constructor_errors (wuxHeaderFile 0 0)).2 (by decide)).mpr
      (by decide)

/-! ## C6: the recorded `file` entry of an accepted FST file -/

/-- C6 counterexample: the claim computes the absolute offset with a
mathematical product `entry.offset * fileOffsetFactor`, but the source
multiplies two `uint32` values, which wraps modulo `2 ^ 32`.  With
`si = 0`, `entry.offset = 0x20000`, `fileOffsetFactor = 0x8000` the
product is `2 ^ 32`, the code records offset `si + 2*SectorSize + 0`,
and the claimed value differs by `2 ^ 32`. -/
theorem claim_C6_offset_counterexample :
    (mkFileEntry 0 0x20000 0x8000 5).offset ≠
      0 + 2 * SECTOR_SIZE + 0x20000 * 0x8000 := by
  decide

/-- C6 (amended): for every FST file entry accepted during `NewWUD`'s
walk, the recorded entry has absolute offset
`si + 2*SECTOR_SIZE + ((entry.offset * fileOffsetFactor) mod 2^32)`,
size `entry.size`, and a 16-byte IV whose low 8 bytes are zero and
whose high 8 bytes hold `((entry.offset * fileOffsetFactor) mod 2^32)
>> 16` as a big-endian u64 — the multiplication is Go `uint32`
arithmetic and wraps modulo `2 ^ 32`. -/
theorem claim_C6_file_entry (si eoff factor esize : Nat) :
    (mkFileEntry si eoff factor esize).offset =
        si + 2 * SECTOR_SIZE + eoff * factor % 2 ^ 32 ∧
      (mkFileEntry si eoff factor esize).size = esize ∧
      (mkFileEntry si eoff factor esize).iv.length = 16 ∧
      (mkFileEntry si eoff factor esize).iv.take 8 = List.replicate 8 0 ∧
      (mkFileEntry si eoff factor esize).iv.drop 8 =
        u64beBytes ((eoff * factor % 2 ^ 32) >>> 16) := by
  exact ⟨rfl, rfl, rfl, rfl, rfl⟩

/-! ## C7: the sector payload base -/

/-- C7 counterexample: the reader accepts `sectorSize = 257`
(`0x100 ≤ 257 < 0x10000000`), and for `uncompressedSize = 100` it
computes base `(32 + 4 + 257 - 1) & (-257) = 36`, which is neither the
claimed round-up `257 = 257 * ceil(36 / 257)` nor even a multiple of
the sector size: the `& (-sectorSize)` mask only rounds up for
power-of-two sector sizes. -/
theorem claim_C7_counterexample :
    NewReaderF (wuxHeaderFile 257 100) = Except.ok ⟨36, 100, 257, [0]⟩ ∧
      (36 : Nat) ≠ 257 * ((wuxHeaderSize + 1 * 4 + 257 - 1) / 257) ∧
      (36 : Nat) % 257 ≠ 0 := by
  refine ⟨?_, by decide, by decide⟩
  rfl

/-- C7 (amended): the sector payload base is
`(headerSize + tableSize*4 + sectorSize - 1) & (-sectorSize)` (int64
bitmask).  Whenever the sector size is a power of two — which includes
every size the format uses in practice — this equals
`headerSize + tableSize*4` rounded up to the next multiple of the
sector size; and the writer seeks to the very same base expression
before emitting sectors, as does the reader after parsing. -/
theorem claim_C7_sector_base :
    (∀ k tableSize : Nat, k ≤ 64 →
        wuxHeaderSize + tableSize * 4 + 2 ^ k - 1 < 2 ^ 64 →
        sectorBase (2 ^ k) tableSize =
          2 ^ k * ((wuxHeaderSize + tableSize * 4 + 2 ^ k - 1) / 2 ^ k)) ∧
      (∀ (D : Type) (ss size : Nat) (broken : Bool),
        (NewWriterM D ss size broken).pos =
          sectorBase ss ((size + ss - 1) / ss)) ∧
      ∀ (f : Nat → Nat) (r : WuxReaderS), NewReaderF f = Except.ok r →
        r.base = sectorBase r.sectorSize
          ((r.limit + r.sectorSize - 1) / r.sectorSize) := by
  refine ⟨?_, fun D ss size broken => rfl, ?_⟩
  · intro k n hk hlt
    unfold sectorBase
    exact land_mask_eq_div_mul _ k hlt hk
  · intro f r h
    unfold NewReaderF at h
    simp only [] at h
    by_cases hm : readU32LE f 0 = wuxMagic0 ∧ readU32LE f 4 = wuxMagic1
    · rw [if_pos hm] at h
      by_cases hs : readU32LE f 8 < 0x100 ∨ 0x10000000 ≤ readU32LE f 8
      · rw [if_pos hs] at h
        cases h
      · rw [if_neg hs] at h
        cases h
        rfl
    · rw [if_neg hm] at h
      cases h

theorem claim_C7_sector_base_witness :
    (15 : Nat) ≤ 64 ∧
      wuxHeaderSize + 763712 * 4 + 2 ^ 15 - 1 < 2 ^ 64 ∧
      sectorBase (2 ^ 15) 763712 =
        2 ^ 15 * ((wuxHeaderSize + 763712 * 4 + 2 ^ 15 - 1) / 2 ^ 15) :=
  ⟨by decide, by decide,
    claim_C7_sector_base.1 15 763712 (by decide) (by decide)⟩

/-! ## C5: lengths of the extracted `.app` files -/

/-- C5 counterexample: a successful extraction where the index-0
`.app` file does not have `contents[0].size` bytes.  One content of
size 49: the padded ciphertext section is `blockRound16 49 = 64` bytes,
exactly enough for the subsequent `0x20`-byte skip plus one 32-byte
app record, so the extraction succeeds — and the tee at the content-0
section (`wud.go` line 519) has written all 64 padded bytes to the
file, not 49. -/
theorem claim_C5_counterexample :
    extractAppLens UNCOMPRESSED_SIZE 0 [⟨0, 0, 0, 49⟩] [] = some [64] ∧
      (64 : Nat) ≠ 49 := by
  constructor
  · decide
  · decide

/-- C5 (amended): for every successful extraction (all content sections
lie inside the disc, and the padded content-0 stream covers the
`0x20 + 32*contentCount` bytes of the app-record parse — otherwise
`Extract` errors and is not successful), the `.app` file for content
index 0 has length exactly `(contents[0].size + 15) & (-16)` — the
size rounded up to the AES block size, equal to `contents[0].size`
only when that is a multiple of 16 — and for every `i > 0` the `.app`
file has length exactly `contents[i].size`. -/
theorem claim_C5_app_lengths (discSize gm : Nat) (c0 : TmdContent)
    (rest : List TmdContent) (appOffsets : List Nat)
    (h0 : gm + SECTOR_SIZE + blockRound16 c0.size ≤ discSize)
    (hsz : c0.size + 15 < 2 ^ 64)
    (hcnt : 0x20 + 32 * (rest.length + 1) ≤ blockRound16 c0.size)
    (hrest : ∀ p, p ∈ rest.zip (appOffsets.drop 1) →
      gm + p.2 * SECTOR_SIZE + p.1.size ≤ discSize) :
    extractAppLens discSize gm (c0 :: rest) appOffsets =
        some (blockRound16 c0.size ::
          (rest.zip (appOffsets.drop 1)).map (fun p => p.1.size)) ∧
      blockRound16 c0.size = 16 * ((c0.size + 15) / 16) := by
  have hhead : sectionAvail discSize (gm + SECTOR_SIZE)
      (blockRound16 c0.size) = blockRound16 c0.size := by
    unfold sectionAvail
    omega
  constructor
  · simp only [extractAppLens]
    rw [hhead]
    rw [if_neg (by omega)]
    have htail : ((rest.zip (appOffsets.drop 1)).map
          (fun co => sectionAvail discSize (gm + co.2 * SECTOR_SIZE) co.1.size)) =
        (rest.zip (appOffsets.drop 1)).map (fun p => p.1.size) := by
      apply List.map_congr_left
      intro p hp
      have hp2 := hrest p hp
      unfold sectionAvail
      omega
    rw [htail]
  · have h16 : (16 : Nat) = 2 ^ 4 := by decide
    unfold blockRound16
    rw [h16]
    exact land_mask_eq_div_mul _ 4 hsz (by decide)

theorem claim_C5_app_lengths_witness :
    (0 : Nat) + SECTOR_SIZE + blockRound16 128 ≤ UNCOMPRESSED_SIZE ∧
      (128 : Nat) + 15 < 2 ^ 64 ∧
      0x20 + 32 * (([(⟨1, 1, 2, 64⟩ : TmdContent)] : List TmdContent).length + 1) ≤
        blockRound16 128 ∧
      extractAppLens UNCOMPRESSED_SIZE 0
          [⟨0, 0, 0, 128⟩, ⟨1, 1, 2, 64⟩] [0, 3] =
        some (blockRound16 128 ::
          ([(⟨1, 1, 2, 64⟩ : TmdContent)].zip ([0, 3].drop 1)).map
            (fun p => p.1.size)) :=
  ⟨by decide, by decide, by decide,
    (claim_C5_app_lengths UNCOMPRESSED_SIZE 0 ⟨0, 0, 0, 128⟩
      [⟨1, 1, 2, 64⟩] [0, 3] (by decide) (by decide) (by decide)
      (by decide)).1⟩

/-! ## C4: partition-table SHA-1 coverage -/

theorem getElem?_eq_of_take_eq {l l' : List Nat} {n i : Nat}
    (h : l'.take n = l.take n) (hi : i < n) : l'[i]? = l[i]? := by
  have h1 : (l'.take n)[i]? = (l.take n)[i]? := by rw [h]
  rwa [List.getElem?_take, List.getElem?_take, if_pos hi, if_pos hi] at h1

/-- `beU32` applied after a `drop` only reads four bytes of the
original list. -/
theorem beU32_drop_congr {l l' : List Nat} {a n : Nat}
    (h : l'.take n = l.take n) (ha : a + 4 ≤ n) :
    beU32 (l'.drop a) = beU32 (l.drop a) := by
  unfold beU32
  have hb : ∀ j, j < 4 → (l'.drop a).getD j 0 = (l.drop a).getD j 0 := by
    intro j hj
    rw [List.getD_eq_getElem?_getD, List.getD_eq_getElem?_getD,
      List.getElem?_drop, List.getElem?_drop,
      getElem?_eq_of_take_eq h (by omega)]
  rw [hb 0 (by omega), hb 1 (by omega), hb 2 (by omega), hb 3 (by omega)]

/-- Reduced form of `newPartitionTable` once the header checks pass:
everything hinges on comparing `H` of the bytes after `0x800` with the
stored checksum. -/
theorem newPartitionTable_reduced (H : List Nat → List Nat)
    (sector : List Nat) (hlen : 0x800 ≤ sector.length)
    (hmagic : beU32 (sector.take 4) = 0xcca6e67b)
    (hnum : 128 * beU32 (sector.drop 28) ≤ sector.length - 0x800) :
    newPartitionTable H sector =
      if H (sector.drop 0x800) ≠ (sector.drop 8).take 20 then
        Except.error PtErr.badChecksum
      else
        Except.ok ((List.range (beU32 (sector.drop 28))).map (fun i =>
          (trimTrailingZeros (((sector.drop 0x800).drop (128 * i)).take 0x1f),
           beU32 ((sector.drop 0x800).drop (128 * i + 0x20)) *
             SECTOR_SIZE))) := by
  unfold newPartitionTable
  rw [if_neg (by omega)]
  simp only []
  rw [if_neg (not_not_intro hmagic), if_neg (by omega)]
  rw [if_neg (by rw [List.length_drop]; omega)]

/-- C4: for every partition-table sector whose header magic matches,
the parser hashes exactly the bytes from offset `0x800` to the end of
the sector, in original order, and fails with the checksum error if
and only if that digest differs from the stored 20-byte checksum.
Consequently any corruption confined to `[0x800, end)` that changes the
digest of that range — e.g. a single flipped byte, for any digest that
distinguishes the two streams, as SHA-1 does for all known single-byte
changes — makes parsing fail with the checksum error.  `H` abstracts
`crypto/sha1`. -/
theorem claim_C4_checksum (H : List Nat → List Nat) (sector : List Nat)
    (hlen : 0x800 ≤ sector.length)
    (hmagic : beU32 (sector.take 4) = 0xcca6e67b)
    (hnum : 128 * beU32 (sector.drop 28) ≤ sector.length - 0x800) :
    (newPartitionTable H sector = Except.error PtErr.badChecksum ↔
        H (sector.drop 0x800) ≠ (sector.drop 8).take 20) ∧
      ∀ sector' : List Nat, sector'.length = sector.length →
        sector'.take 0x800 = sector.take 0x800 →
        H (sector'.drop 0x800) ≠ H (sector.drop 0x800) →
        (∃ pt, newPartitionTable H sector = Except.ok pt) →
        newPartitionTable H sector' = Except.error PtErr.badChecksum := by
  have hred := newPartitionTable_reduced H sector hlen hmagic hnum
  constructor
  · rw [hred]
    by_cases hck : H (sector.drop 0x800) ≠ (sector.drop 8).take 20
    · rw [if_pos hck]
      simp [hck]
    · rw [if_neg hck]
      simp [hck]
  · intro sector' hl htake hdig hok
    have hck : H (sector.drop 0x800) = (sector.drop 8).take 20 := by
      rcases hok with ⟨pt, hpt⟩
      rw [hred] at hpt
      by_cases hck : H (sector.drop 0x800) ≠ (sector.drop 8).take 20
      · rw [if_pos hck] at hpt
        cases hpt
      · exact not_not.mp hck
    have hmagic' : beU32 (sector'.take 4) = 0xcca6e67b := by
      rw [← hmagic]
      have h4 : sector'.take 4 = sector.take 4 := by
        have := congrArg (List.take 4) htake
        rwa [List.take_take, List.take_take] at this
      rw [h4]
    have hnum' : 128 * beU32 (sector'.drop 28) ≤ sector'.length - 0x800 := by
      rw [beU32_drop_congr htake (by omega), hl]
      exact hnum
    have hck' : (sector'.drop 8).take 20 = (sector.drop 8).take 20 := by
      apply List.ext_getElem?
      intro i
      rw [List.getElem?_take, List.getElem?_take]
      by_cases hi : i < 20
      · rw [if_pos hi, if_pos hi, List.getElem?_drop, List.getElem?_drop,
          getElem?_eq_of_take_eq htake (by omega)]
      · rw [if_neg hi, if_neg hi]
    have hred' := newPartitionTable_reduced H sector' (by omega) hmagic' hnum'
    rw [hred', if_pos (by rw [hck', ← hck]; exact hdig)]

theorem claim_C4_checksum_witness :
    (0x800 : Nat) ≤ exampleSector.length ∧
      beU32 (exampleSector.take 4) = 0xcca6e67b ∧
      128 * beU32 (exampleSector.drop 28) ≤ exampleSector.length - 0x800 ∧
      (newPartitionTable zeroDigest exampleSector =
          Except.error PtErr.badChecksum ↔
        zeroDigest (exampleSector.drop 0x800) ≠
          (exampleSector.drop 8).take 20) := by
  have hlen : exampleSector.length = 2048 := by
    unfold exampleSector
    rw [List.length_append, List.length_replicate]
    rfl
  have htake : exampleSector.take 4 = [0xcc, 0xa6, 0xe6, 0x7b] := by
    unfold exampleSector
    exact List.take_left' rfl
  have hdrop : exampleSector.drop 28 = List.replicate 2020 0 := by
    unfold exampleSector
    rfl
  have h1 : (0x800 : Nat) ≤ exampleSector.length := by omega
  have h2 : beU32 (exampleSector.take 4) = 0xcca6e67b := by
    rw [htake]
    decide
  have h3 : 128 * beU32 (exampleSector.drop 28) ≤
      exampleSector.length - 0x800 := by
    rw [hdrop, hlen]
    have : beU32 (List.replicate 2020 0) = 0 := by
      unfold beU32
      rw [List.getD_eq_getElem?_getD, List.getD_eq_getElem?_getD,
        List.getD_eq_getElem?_getD, List.getD_eq_getElem?_getD]
      rw [List.getElem?_replicate, List.getElem?_replicate,
        List.getElem?_replicate, List.getElem?_replicate]
      norm_num
    rw [this]
  exact ⟨h1, h2, h3, (claim_C4_checksum zeroDigest exampleSector h1 h2 h3).1⟩

/-! ## C2: split-image reader -/

theorem collectParts_spec (files : String → Option (List Nat))
    (l : List (List Nat)) :
    ∀ start fuel : Nat,
      (∀ i, (h : i < l.length) →
        files (multipartName (start + i)) = some (l.get ⟨i, h⟩)) →
      files (multipartName (start + l.length)) = none →
      l.length < fuel →
      collectParts files fuel start = l := by
  induction l with
  | nil =>
    intro start fuel hsome hnone hfuel
    cases fuel with
    | zero => omega
    | succ n =>
      simp only [collectParts]
      have h0 : files (multipartName start) = none := by
        simpa using hnone
      rw [h0]
  | cons c cs ih =>
    intro start fuel hsome hnone hfuel
    cases fuel with
    | zero => omega
    | succ n =>
      simp only [collectParts]
      have h0 : files (multipartName start) = some c := by
        simpa using hsome 0 (by simp)
      rw [h0]
      show c :: collectParts files n (start + 1) = c :: cs
      congr 1
      apply ih (start + 1) n
      · intro i h
        have hs := hsome (i + 1) (by simp only [List.length_cons]; omega)
        rw [show start + (i + 1) = start + 1 + i by omega] at hs
        simpa using hs
      · rw [show start + 1 + cs.length = start + (c :: cs).length by
          simp only [List.length_cons]
          omega]
        exact hnone
      · simp only [List.length_cons] at hfuel
        omega

/-- A single-byte read from the multi-reader equals indexing the
concatenation of the parts, for every in-range offset. -/
theorem multiReadAt1_flatten (parts : List (List Nat)) :
    ∀ off, off < (parts.map List.length).sum →
      multiReadAt1 parts off = parts.flatten.get? off := by
  induction parts with
  | nil =>
    intro off h
    simp at h
  | cons p ps ih =>
    intro off h
    simp only [List.map_cons, List.sum_cons] at h
    simp only [multiReadAt1, List.flatten_cons]
    by_cases hp : off < p.length
    · rw [if_pos hp, List.get?_eq_getElem?, List.get?_eq_getElem?,
        List.getElem?_append_left hp]
    · rw [if_neg hp, ih (off - p.length) (by omega),
        List.get?_eq_getElem?, List.get?_eq_getElem?,
        List.getElem?_append_right (by omega)]

/-- C2: opening a split disc image on basename `game_part1.wud` with
contiguous sibling fragments yields a reader whose `Size` is the sum of
the fragment sizes and whose single-byte `ReadAt` at any in-range
offset `i` returns byte `i` of the concatenation of the fragments in
index order.  (The multi-reader of the go4.org dependency is modelled
from the spec as prefix-sum concatenation, see `multiReadAt1`.) -/
theorem claim_C2_split_reader (files : String → Option (List Nat))
    (c : List Nat) (rest : List (List Nat))
    (hsome : ∀ i, (h : i < (c :: rest).length) →
      files (multipartName (i + 1)) = some ((c :: rest).get ⟨i, h⟩))
    (hnone : files (multipartName ((c :: rest).length + 1)) = none) :
    ∃ r, OpenReaderM files (c :: rest).length (multipartName 1) = some r ∧
      r.size = ((c :: rest).map List.length).sum ∧
      ∀ off, off < ((c :: rest).map List.length).sum →
        r.readAt1 off = (c :: rest).flatten.get? off := by
  have h1 : files (multipartName 1) = some c := by
    simpa using hsome 0 (by simp)
  have hparts : collectParts files (c :: rest).length 2 = rest := by
    apply collectParts_spec files rest 2 (c :: rest).length
    · intro i h
      have hs := hsome (i + 1) (by simp only [List.length_cons]; omega)
      rw [show i + 1 + 1 = 2 + i by omega] at hs
      simpa using hs
    · rw [show (2 : Nat) + rest.length = (c :: rest).length + 1 by
        simp only [List.length_cons]
        omega]
      exact hnone
    · simp only [List.length_cons]
      omega
  refine ⟨⟨c :: rest⟩, ?_, rfl, ?_⟩
  · unfold OpenReaderM
    rw [h1]
    show (if multipartName 1 = multipartName 1 then
      some (SplitReaderS.mk (c :: collectParts files (c :: rest).length 2))
      else some (SplitReaderS.mk [c])) = some (SplitReaderS.mk (c :: rest))
    rw [if_pos rfl, hparts]
  · intro off hoff
    unfold SplitReaderS.readAt1
    exact multiReadAt1_flatten (c :: rest) off hoff

theorem claim_C2_split_reader_witness :
    ∃ r, OpenReaderM exampleFiles 2 (multipartName 1) = some r ∧
      r.size = (([[1, 2], [3]] : List (List Nat)).map List.length).sum ∧
      ∀ off, off < (([[1, 2], [3]] : List (List Nat)).map List.length).sum →
        r.readAt1 off = ([[1, 2], [3]] : List (List Nat)).flatten.get? off := by
  have hsome : ∀ i, (h : i < ([[1, 2], [3]] : List (List Nat)).length) →
      exampleFiles (multipartName (i + 1)) =
        some (([[1, 2], [3]] : List (List Nat)).get ⟨i, h⟩) := by
    intro i h
    rcases i with _ | _ | i
    · exact (by decide : exampleFiles (multipartName 1) = some [1, 2])
    · exact (by decide : exampleFiles (multipartName 2) = some [3])
    · have h2 : i + 1 + 1 < 2 := by
        have hl : ([[1, 2], [3]] : List (List Nat)).length = 2 := rfl
        rwa [hl] at h
      exact absurd h2 (by omega)
  have hnone : exampleFiles
      (multipartName (([[1, 2], [3]] : List (List Nat)).length + 1)) =
        none := by decide
  exact claim_C2_split_reader exampleFiles [1, 2] [[3]] hsome hnone

/-! ## C8: `writer.Close` -/

/-- C8: with no latched error and a healthy sink, `Close` fails exactly
when undigested bytes remain in the buffer or the total bytes accepted
by `Write` differ from `uncompressedSize`; when it succeeds it has
seeked to `headerSize` and written the full sector table as
little-endian u32 values there. -/
theorem claim_C8_close (D : Type) (st : WuxWriterS D)
    (herr : st.err = none) (hbroken : st.broken = false) :
    ((∃ e, closeW st = Except.error e) ↔
        (st.buf ≠ [] ∨ st.off ≠ st.limit)) ∧
      ∀ g, closeW st = Except.ok g →
        ∀ j, j < (tableBytes st.table).length →
          g (wuxHeaderSize + j) = (tableBytes st.table).getD j 0 := by
  have hcw : closeW st =
      if st.buf.length ≠ 0 ∨ st.off ≠ st.limit then
        Except.error "wux: not enough data written"
      else Except.ok (writeBytesF st.file wuxHeaderSize
        (tableBytes st.table)) := by
    unfold closeW
    rw [herr]
    show (if st.buf.length ≠ 0 ∨ st.off ≠ st.limit then
        Except.error "wux: not enough data written"
      else if st.broken then Except.error "wux: write error"
      else Except.ok (writeBytesF st.file wuxHeaderSize
        (tableBytes st.table))) = _
    rw [hbroken]
    by_cases hc : st.buf.length ≠ 0 ∨ st.off ≠ st.limit
    · rw [if_pos hc, if_pos hc]
    · rw [if_neg hc, if_neg hc, if_neg (by simp)]
  rw [hcw]
  by_cases hc : st.buf.length ≠ 0 ∨ st.off ≠ st.limit
  · rw [if_pos hc]
    constructor
    · constructor
      · intro _
        rcases hc with hb | ho
        · exact Or.inl (by
            intro hnil
            rw [hnil] at hb
            exact hb rfl)
        · exact Or.inr ho
      · intro _
        exact ⟨"wux: not enough data written", rfl⟩
    · intro g hg
      cases hg
  · rw [if_neg hc]
    push_neg at hc
    constructor
    · constructor
      · rintro ⟨e, he⟩
        cases he
      · intro hcon
        rcases hcon with hb | ho
        · exact absurd (List.eq_nil_of_length_eq_zero hc.1) hb
        · exact absurd hc.2 ho
    · intro g hg
      cases hg
      intro j hj
      exact writeBytesF_get_inside st.file wuxHeaderSize (tableBytes st.table) j hj

theorem claim_C8_close_witness :
    ((∃ e, closeW exampleWriter = Except.error e) ↔
        (exampleWriter.buf ≠ [] ∨ exampleWriter.off ≠ exampleWriter.limit)) ∧
      ∀ g, closeW exampleWriter = Except.ok g →
        ∀ j, j < (tableBytes exampleWriter.table).length →
          g (wuxHeaderSize + j) = (tableBytes exampleWriter.table).getD j 0 :=
  claim_C8_close Unit exampleWriter rfl rfl

/-! ## C9: the writer's sticky error -/

/-- C9: once a `Write` call has failed with error `e` (which latches
`w.err := e`), every subsequent `Write` call returns `(0, e)` with the
writer state — including the underlying sink — completely unchanged, so
no further I/O is performed and the error is never cleared; and every
`Write` that returns an error has latched exactly that error. -/
theorem claim_C9_sticky_error (D : Type) [DecidableEq D]
    (dg : List Nat → D) :
    (∀ (st : WuxWriterS D) (p : List Nat) (e : String), st.err = some e →
        writeW dg st p = ((0, some e), st)) ∧
      ∀ (st st' : WuxWriterS D) (p : List Nat) (n : Nat) (e : String),
        st.err = none → writeW dg st p = ((n, some e), st') →
        st'.err = some e := by
  constructor
  · intro st p e he
    unfold writeW
    rw [he]
  · intro st st' p n e he hw
    unfold writeW at hw
    rw [he] at hw
    simp only [Prod.mk.injEq] at hw
    rcases hw with ⟨⟨-, herr⟩, hst⟩
    rw [← hst]
    exact herr

theorem claim_C9_sticky_error_witness :
    writeW (fun _ => ()) exampleBrokenWriter [1, 2, 3] =
      ((0, some "wux: write error"), exampleBrokenWriter) :=
  (claim_C9_sticky_error Unit (fun _ => ())).1 exampleBrokenWriter [1, 2, 3]
    "wux: write error" rfl

/-! ## C1: write/read round trip — chunking lemmas -/

theorem toSectors_stop (ss : Nat) (l : List Nat)
    (h : ¬(0 < ss ∧ ss ≤ l.length)) : toSectors ss l = [] := by
  rw [toSectors, dif_neg h]

theorem toSectors_step (ss : Nat) (l : List Nat)
    (h : 0 < ss ∧ ss ≤ l.length) :
    toSectors ss l = l.take ss :: toSectors ss (l.drop ss) := by
  rw [toSectors]
  rw [dif_pos h]

theorem sectorsRem_stop (ss : Nat) (l : List Nat)
    (h : ¬(0 < ss ∧ ss ≤ l.length)) : sectorsRem ss l = l := by
  rw [sectorsRem, dif_neg h]

theorem sectorsRem_step (ss : Nat) (l : List Nat)
    (h : 0 < ss ∧ ss ≤ l.length) :
    sectorsRem ss l = sectorsRem ss (l.drop ss) := by
  rw [sectorsRem]
  rw [dif_pos h]

theorem sectorsRem_nil_of_dvd (ss : Nat) (hss : 0 < ss) :
    ∀ n (l : List Nat), l.length = n → ss ∣ l.length →
      sectorsRem ss l = [] := by
  intro n
  induction n using Nat.strong_induction_on with
  | _ n ih =>
    intro l hl hdvd
    by_cases h : 0 < ss ∧ ss ≤ l.length
    · rw [sectorsRem_step ss l h]
      apply ih (l.length - ss) (by omega)
      · rw [List.length_drop]
      · rw [List.length_drop]
        exact Nat.dvd_sub' hdvd (dvd_refl ss)
    · rw [sectorsRem_stop ss l h]
      rcases hdvd with ⟨k, hk⟩
      cases k with
      | zero =>
        rw [Nat.mul_zero] at hk
        exact List.eq_nil_of_length_eq_zero hk
      | succ k =>
        exfalso
        apply h
        refine ⟨hss, ?_⟩
        rw [hk]
        exact Nat.le_mul_of_pos_right ss (Nat.succ_pos k)

theorem toSectors_length (ss : Nat) (hss : 0 < ss) :
    ∀ n (l : List Nat), l.length = n →
      (toSectors ss l).length = l.length / ss := by
  intro n
  induction n using Nat.strong_induction_on with
  | _ n ih =>
    intro l hl
    by_cases h : 0 < ss ∧ ss ≤ l.length
    · rw [toSectors_step ss l h, List.length_cons,
        ih (l.length - ss) (by omega) (l.drop ss) (by rw [List.length_drop]),
        List.length_drop]
      rw [Nat.div_eq_sub_div hss h.2]
    · rw [toSectors_stop ss l h, List.length_nil]
      exact (Nat.div_eq_of_lt (by omega)).symm

theorem toSectors_getD (ss : Nat) (hss : 0 < ss) :
    ∀ j (l : List Nat), ss * (j + 1) ≤ l.length →
      (toSectors ss l).getD j [] = (l.drop (ss * j)).take ss := by
  intro j
  induction j with
  | zero =>
    intro l hle
    rw [toSectors_step ss l (by constructor <;> omega)]
    rw [List.getD_cons_zero]
    rw [Nat.mul_zero, List.drop_zero]
  | succ j ih =>
    intro l hle
    have hle1 : ss ≤ l.length := by
      calc ss ≤ ss * (j + 1 + 1) := Nat.le_mul_of_pos_right ss (by omega)
        _ ≤ l.length := hle
    rw [toSectors_step ss l ⟨hss, hle1⟩, List.getD_cons_succ]
    rw [ih (l.drop ss) (by
      rw [List.length_drop]
      have hx : ss * (j + 1 + 1) = ss * (j + 1) + ss := by ring
      omega)]
    rw [List.drop_drop]
    congr 2
    ring

/-! ## C1 — fileSector lemmas -/

theorem fileSector_length (f : Nat → Nat) (base ss v : Nat) :
    (fileSector f base ss v).length = ss := by
  unfold fileSector
  rw [List.length_map, List.length_range]

theorem fileSector_getD (f : Nat → Nat) (base ss v r : Nat) (hr : r < ss) :
    (fileSector f base ss v).getD r 0 = f (base + v * ss + r) := by
  unfold fileSector
  rw [List.getD_eq_getElem?_getD, List.getElem?_map, List.getElem?_range hr]
  rfl

theorem fileSector_congr (f g : Nat → Nat) (base ss v : Nat)
    (h : ∀ q, base + v * ss ≤ q → q < base + v * ss + ss → f q = g q) :
    fileSector f base ss v = fileSector g base ss v := by
  unfold fileSector
  apply List.map_congr_left
  intro r hr
  rw [List.mem_range] at hr
  exact h _ (by omega) (by omega)

/-- Writing at or above the end of slot `v` leaves slot `v` unchanged. -/
theorem fileSector_write_above (f : Nat → Nat) (pos : Nat) (p : List Nat)
    (base ss v : Nat) (h : base + v * ss + ss ≤ pos) :
    fileSector (writeBytesF f pos p) base ss v = fileSector f base ss v := by
  apply fileSector_congr
  intro q hq1 hq2
  exact writeBytesF_get_left f pos p q (by omega)

/-- Writing `s` (of length `ss`) at the start of slot `v` makes slot `v`
hold exactly `s`. -/
theorem fileSector_write_exact (f : Nat → Nat) (s : List Nat)
    (base ss v : Nat) (hlen : s.length = ss) :
    fileSector (writeBytesF f (base + ss * v) s) base ss v = s := by
  apply List.ext_getElem?
  intro r
  by_cases hr : r < ss
  · have h1 : (fileSector (writeBytesF f (base + ss * v) s) base ss v)[r]? =
        some ((writeBytesF f (base + ss * v) s) (base + v * ss + r)) := by
      unfold fileSector
      rw [List.getElem?_map, List.getElem?_range hr]
      rfl
    rw [h1]
    have h2 : base + v * ss + r = (base + ss * v) + r := by ring
    have h4 : r < s.length := by omega
    rw [h2, writeBytesF_get_inside f (base + ss * v) s r h4]
    rw [List.getD_eq_getElem?_getD]
    cases hx : s[r]? with
    | none =>
      rw [List.getElem?_eq_none_iff] at hx
      omega
    | some b =>
      rfl
  · rw [List.getElem?_eq_none, List.getElem?_eq_none]
    · omega
    · rw [fileSector_length]
      omega

/-! ## C1 — serialization peeling lemmas -/

theorem readU32LE_write_left (f : Nat → Nat) (pos : Nat) (p : List Nat)
    (q : Nat) (h : q + 4 ≤ pos) :
    readU32LE (writeBytesF f pos p) q = readU32LE f q :=
  readU32LE_congr _ _ q (fun j hj =>
    writeBytesF_get_left f pos p (q + j) (by omega))

theorem readU32LE_write_right (f : Nat → Nat) (pos : Nat) (p : List Nat)
    (q : Nat) (h : pos + p.length ≤ q) :
    readU32LE (writeBytesF f pos p) q = readU32LE f q :=
  readU32LE_congr _ _ q (fun j hj =>
    writeBytesF_get_right f pos p (q + j) (by omega))

theorem readU64LE_write_left (f : Nat → Nat) (pos : Nat) (p : List Nat)
    (q : Nat) (h : q + 8 ≤ pos) :
    readU64LE (writeBytesF f pos p) q = readU64LE f q :=
  readU64LE_congr _ _ q (fun j hj =>
    writeBytesF_get_left f pos p (q + j) (by omega))

theorem wuxHeaderFile_magic0 (ss size : Nat) :
    readU32LE (wuxHeaderFile ss size) 0 = wuxMagic0 := by
  unfold wuxHeaderFile
  rw [readU32LE_write_left _ _ _ _ (by norm_num),
    readU32LE_write_left _ _ _ _ (by norm_num),
    readU32LE_write_left _ _ _ _ (by norm_num),
    readU32LE_write_left _ _ _ _ (by norm_num),
    readU32LE_write_left _ _ _ _ (by norm_num),
    readU32LE_write_left _ _ _ _ (by norm_num)]
  exact readU32LE_writeBytesF_u32le _ 0 wuxMagic0 (by decide)

theorem wuxHeaderFile_magic1 (ss size : Nat) :
    readU32LE (wuxHeaderFile ss size) 4 = wuxMagic1 := by
  unfold wuxHeaderFile
  rw [readU32LE_write_left _ _ _ _ (by norm_num),
    readU32LE_write_left _ _ _ _ (by norm_num),
    readU32LE_write_left _ _ _ _ (by norm_num),
    readU32LE_write_left _ _ _ _ (by norm_num),
    readU32LE_write_left _ _ _ _ (by norm_num)]
  exact readU32LE_writeBytesF_u32le _ 4 wuxMagic1 (by decide)

theorem wuxHeaderFile_sectorSize (ss size : Nat) (hss : ss < 2 ^ 32) :
    readU32LE (wuxHeaderFile ss size) 8 = ss := by
  unfold wuxHeaderFile
  rw [readU32LE_write_left _ _ _ _ (by norm_num),
    readU32LE_write_left _ _ _ _ (by norm_num),
    readU32LE_write_left _ _ _ _ (by norm_num),
    readU32LE_write_left _ _ _ _ (by norm_num)]
  exact readU32LE_writeBytesF_u32le _ 8 ss hss

theorem wuxHeaderFile_size (ss size : Nat) (hsize : size < 2 ^ 64) :
    readU64LE (wuxHeaderFile ss size) 16 = size := by
  unfold wuxHeaderFile
  rw [readU64LE_write_left _ _ _ _ (by norm_num),
    readU64LE_write_left _ _ _ _ (by norm_num)]
  exact readU64LE_writeBytesF_u64le _ 16 size hsize

/-! ## C1 — table serialization lemmas -/

theorem tableBytes_length (t : List Nat) :
    (tableBytes t).length = 4 * t.length := by
  induction t with
  | nil => rfl
  | cons a t ih =>
    unfold tableBytes at ih ⊢
    rw [List.flatMap_cons, List.length_append, ih, u32leBytes_length,
      List.length_cons]
    ring

theorem tableBytes_getD (t : List Nat) :
    ∀ i j, i < t.length → j < 4 →
      (tableBytes t).getD (4 * i + j) 0 =
        (u32leBytes (t.getD i 0)).getD j 0 := by
  induction t with
  | nil =>
    intro i j hi hj
    simp at hi
  | cons a t ih =>
    intro i j hi hj
    unfold tableBytes
    rw [List.flatMap_cons]
    cases i with
    | zero =>
      rw [List.getD_eq_getElem?_getD,
        List.getElem?_append_left (by rw [u32leBytes_length]; omega)]
      rw [List.getD_cons_zero, List.getD_eq_getElem?_getD]
      norm_num
    | succ i =>
      rw [List.getD_eq_getElem?_getD,
        List.getElem?_append_right (by rw [u32leBytes_length]; omega)]
      have harith : 4 * (i + 1) + j - (u32leBytes a).length = 4 * i + j := by
        rw [u32leBytes_length]
        omega
      rw [harith, List.getD_cons_succ]
      rw [← List.getD_eq_getElem?_getD]
      exact ih i j (by simp at hi; omega) hj

theorem readU32LE_table (f : Nat → Nat) (t : List Nat) (i : Nat)
    (hi : i < t.length) (hv : t.getD i 0 < 2 ^ 32) :
    readU32LE (writeBytesF f wuxHeaderSize (tableBytes t))
      (wuxHeaderSize + 4 * i) = t.getD i 0 := by
  unfold readU32LE
  have hb : ∀ j, j < 4 →
      writeBytesF f wuxHeaderSize (tableBytes t) (wuxHeaderSize + 4 * i + j) =
        (u32leBytes (t.getD i 0)).getD j 0 := by
    intro j hj
    have h1 : wuxHeaderSize + 4 * i + j = wuxHeaderSize + (4 * i + j) := by
      omega
    rw [h1, writeBytesF_get_inside f wuxHeaderSize (tableBytes t) (4 * i + j)
      (by rw [tableBytes_length]; omega)]
    exact tableBytes_getD t i j hi hj
  have h0 := hb 0 (by omega)
  have h1 := hb 1 (by omega)
  have h2 := hb 2 (by omega)
  have h3 := hb 3 (by omega)
  have h0' : writeBytesF f wuxHeaderSize (tableBytes t)
      (wuxHeaderSize + 4 * i) = (u32leBytes (t.getD i 0)).getD 0 0 := h0
  rw [h0', h1, h2, h3]
  simp only [u32leBytes, List.getD_cons_zero, List.getD_cons_succ]
  omega

/-! ## C1 — dedup-map lookup lemmas -/

theorem lookup_mem {D : Type} [DecidableEq D] {k : D} {v : Nat} :
    ∀ m : List (D × Nat), m.lookup k = some v → (k, v) ∈ m := by
  intro m
  induction m with
  | nil =>
    intro h
    cases h
  | cons a m ih =>
    intro h
    rcases a with ⟨k1, v1⟩
    rw [List.lookup] at h
    by_cases hk : k = k1
    · rw [hk, beq_self_eq_true] at h
      have h2 : some v1 = some v := h
      cases h2
      rw [hk]
      exact List.mem_cons_self _ _
    · rw [beq_eq_false_iff_ne.mpr hk] at h
      have h2 : List.lookup k m = some v := h
      exact List.mem_cons_of_mem _ (ih h2)

theorem lookup_none_not_mem {D : Type} [DecidableEq D] {k : D} {v : Nat} :
    ∀ m : List (D × Nat), m.lookup k = none → (k, v) ∉ m := by
  intro m
  induction m with
  | nil =>
    intro _ hmem
    cases hmem
  | cons a m ih =>
    intro h hmem
    rcases a with ⟨k1, v1⟩
    rw [List.lookup] at h
    by_cases hk : k = k1
    · rw [hk, beq_self_eq_true] at h
      have h2 : some v1 = none := h
      cases h2
    · rw [beq_eq_false_iff_ne.mpr hk] at h
      have h2 : List.lookup k m = none := h
      rcases List.mem_cons.mp hmem with heq | hmem2
      · cases heq
        exact hk rfl
      · exact ih h2 hmem2

/-! ## C1 — unfolding the flush loop -/

theorem flushW_stop {D : Type} [DecidableEq D] (dg : List Nat → D)
    (st : WuxWriterS D)
    (h : ¬(0 < st.sectorSize ∧ st.sectorSize ≤ st.buf.length)) :
    flushW dg st = st := by
  rw [flushW]
  rw [dif_neg h]

theorem flushW_dup {D : Type} [DecidableEq D] (dg : List Nat → D)
    (st : WuxWriterS D)
    (h : 0 < st.sectorSize ∧ st.sectorSize ≤ st.buf.length) (v : Nat)
    (hv : st.m.lookup (dg (st.buf.take st.sectorSize)) = some v) :
    flushW dg st = flushW dg { st with
      buf := st.buf.drop st.sectorSize
      table := st.table ++ [v] } := by
  conv_lhs => rw [flushW]
  rw [dif_pos h]
  simp only [hv]

theorem flushW_new {D : Type} [DecidableEq D] (dg : List Nat → D)
    (st : WuxWriterS D)
    (h : 0 < st.sectorSize ∧ st.sectorSize ≤ st.buf.length)
    (hv : st.m.lookup (dg (st.buf.take st.sectorSize)) = none)
    (hbr : st.broken = false) :
    flushW dg st = flushW dg { st with
      file := writeBytesF st.file st.pos (st.buf.take st.sectorSize)
      pos := st.pos + st.sectorSize
      buf := st.buf.drop st.sectorSize
      m := (dg (st.buf.take st.sectorSize), st.unique) :: st.m
      unique := st.unique + 1
      table := st.table ++ [st.unique] } := by
  conv_lhs => rw [flushW]
  rw [dif_pos h]
  simp only [hv, hbr, Bool.false_eq_true, if_false]

theorem getD_append_left_list (l1 l2 : List (List Nat)) (j : Nat)
    (hj : j < l1.length) : (l1 ++ l2).getD j [] = l1.getD j [] := by
  rw [List.getD_eq_getElem?_getD, List.getD_eq_getElem?_getD,
    List.getElem?_append_left hj]

theorem getD_append_last (l1 : List (List Nat)) (s : List Nat) :
    (l1 ++ [s]).getD l1.length [] = s := by
  rw [List.getD_eq_getElem?_getD, List.getElem?_append_right (le_refl _)]
  simp

/-! ## C1 — the writer invariant is preserved by the flush loop -/

theorem flushW_inv {D : Type} [DecidableEq D] (dg : List Nat → D)
    (hdg : Function.Injective dg) (base ss : Nat) (hss : 0 < ss) :
    ∀ n (st : WuxWriterS D) (done : List (List Nat)),
      st.buf.length = n → WInv dg base ss st done →
      WInv dg base ss (flushW dg st) (done ++ toSectors ss st.buf) ∧
        (flushW dg st).buf = sectorsRem ss st.buf ∧
        (flushW dg st).off = st.off ∧
        (flushW dg st).limit = st.limit ∧
        ∀ q, q < base + ss * st.unique → (flushW dg st).file q = st.file q := by
  intro n
  induction n using Nat.strong_induction_on with
  | _ n ih =>
    intro st done hbuf hinv
    have hssr : st.sectorSize = ss := hinv.hss
    by_cases hc : 0 < st.sectorSize ∧ st.sectorSize ≤ st.buf.length
    · -- a full sector is buffered
      have hcs : 0 < ss ∧ ss ≤ st.buf.length := by
        rw [← hssr]
        exact hc
      have hslen : (st.buf.take st.sectorSize).length = ss := by
        rw [List.length_take, hssr]
        omega
      have hts : toSectors ss st.buf =
          st.buf.take st.sectorSize :: toSectors ss (st.buf.drop st.sectorSize) := by
        rw [hssr, toSectors_step ss st.buf hcs]
      have hrem : sectorsRem ss st.buf =
          sectorsRem ss (st.buf.drop st.sectorSize) := by
        rw [hssr, sectorsRem_step ss st.buf hcs]
      cases hlk : st.m.lookup (dg (st.buf.take st.sectorSize)) with
      | some v =>
        -- duplicate sector: drop the bytes, extend the table
        have hmem := lookup_mem st.m hlk
        have hvlt : v < st.unique := hinv.hmlt _ v hmem
        have hvs : fileSector st.file base ss v = st.buf.take st.sectorSize :=
          hdg (hinv.hmdg _ v hmem)
        have hinv2 : WInv dg base ss
            { st with
              buf := st.buf.drop st.sectorSize
              table := st.table ++ [v] }
            (done ++ [st.buf.take st.sectorSize]) := by
          refine ⟨hinv.hss, hinv.hbroken, hinv.herr, hinv.hpos, ?_,
            hinv.hmlt, hinv.hmdg, hinv.hmfull, ?_, ?_, ?_⟩
          · simp only [List.length_append, List.length_cons, List.length_nil]
            have := hinv.huniq
            omega
          · simp only [List.length_append, List.length_cons, List.length_nil]
            rw [hinv.htlen]
          · intro x hx
            rcases List.mem_append.mp hx with hx1 | hx2
            · exact hinv.hdlen x hx1
            · rcases List.mem_singleton.mp hx2 with rfl
              exact hslen
          · intro j hj
            simp only [List.length_append, List.length_cons,
              List.length_nil] at hj
            by_cases hjd : j < done.length
            · rcases hinv.htab j hjd with ⟨v0, hv0, hv0lt, hv0s⟩
              refine ⟨v0, ?_, hv0lt, ?_⟩
              · rw [List.getElem?_append_left (by rw [hinv.htlen]; omega)]
                exact hv0
              · rw [getD_append_left_list done _ j hjd]
                exact hv0s
            · have hje : j = done.length := by omega
              refine ⟨v, ?_, hvlt, ?_⟩
              · rw [List.getElem?_append_right (by rw [hinv.htlen]; omega)]
                rw [hinv.htlen, hje]
                simp
              · rw [hje, getD_append_last]
                exact hvs
        have hih := ih (st.buf.length - st.sectorSize) (by omega)
          { st with
            buf := st.buf.drop st.sectorSize
            table := st.table ++ [v] }
          (done ++ [st.buf.take st.sectorSize])
          (by simp only [List.length_drop]) hinv2
        rw [flushW_dup dg st hc v hlk]
        refine ⟨?_, ?_, hih.2.2.1, hih.2.2.2.1, ?_⟩
        · rw [hts]
          have hl : (done ++ [st.buf.take st.sectorSize]) ++
              toSectors ss (st.buf.drop st.sectorSize) =
              done ++ st.buf.take st.sectorSize ::
                toSectors ss (st.buf.drop st.sectorSize) := by
            rw [List.append_assoc]
            rfl
          rw [← hl]
          exact hih.1
        · rw [hrem]
          exact hih.2.1
        · intro q hq
          exact hih.2.2.2.2 q hq
      | none =>
        -- new sector: append its bytes to the sink at the next slot
        have hst2 : flushW dg st = flushW dg { st with
            file := writeBytesF st.file st.pos (st.buf.take st.sectorSize)
            pos := st.pos + st.sectorSize
            buf := st.buf.drop st.sectorSize
            m := (dg (st.buf.take st.sectorSize), st.unique) :: st.m
            unique := st.unique + 1
            table := st.table ++ [st.unique] } :=
          flushW_new dg st hc hlk hinv.hbroken
        have hposr : st.pos = base + ss * st.unique := hinv.hpos
        have hsec_new : fileSector
            (writeBytesF st.file st.pos (st.buf.take st.sectorSize))
            base ss st.unique = st.buf.take st.sectorSize := by
          rw [hposr]
          exact fileSector_write_exact st.file (st.buf.take st.sectorSize)
            base ss st.unique hslen
        have hsec_old : ∀ w, w < st.unique →
            fileSector (writeBytesF st.file st.pos (st.buf.take st.sectorSize))
              base ss w = fileSector st.file base ss w := by
          intro w hw
          apply fileSector_write_above
          rw [hposr]
          have hmul : w * ss + ss ≤ ss * st.unique := by
            have h1 : (w + 1) * ss ≤ st.unique * ss :=
              Nat.mul_le_mul_right ss hw
            calc w * ss + ss = (w + 1) * ss := by ring
              _ ≤ st.unique * ss := h1
              _ = ss * st.unique := by ring
          omega
        have hinv2 : WInv dg base ss
            { st with
              file := writeBytesF st.file st.pos (st.buf.take st.sectorSize)
              pos := st.pos + st.sectorSize
              buf := st.buf.drop st.sectorSize
              m := (dg (st.buf.take st.sectorSize), st.unique) :: st.m
              unique := st.unique + 1
              table := st.table ++ [st.unique] }
            (done ++ [st.buf.take st.sectorSize]) := by
          refine ⟨hinv.hss, hinv.hbroken, hinv.herr, ?_, ?_, ?_, ?_, ?_,
            ?_, ?_, ?_⟩
          · show st.pos + st.sectorSize = base + ss * (st.unique + 1)
            rw [hposr, hssr, Nat.mul_succ]
            omega
          · show st.unique + 1 ≤ (st.table ++ [st.unique]).length
            rw [List.length_append, List.length_cons, List.length_nil]
            have := hinv.huniq
            omega
          · intro d w hmem
            show w < st.unique + 1
            rcases List.mem_cons.mp hmem with heq | hmem2
            · cases heq
              omega
            · have := hinv.hmlt d w hmem2
              omega
          · intro d w hmem
            rcases List.mem_cons.mp hmem with heq | hmem2
            · cases heq
              show dg (fileSector (writeBytesF st.file st.pos
                (st.buf.take st.sectorSize)) base ss st.unique) = _
              rw [hsec_new]
            · show dg (fileSector (writeBytesF st.file st.pos
                (st.buf.take st.sectorSize)) base ss w) = d
              rw [hsec_old w (hinv.hmlt d w hmem2)]
              exact hinv.hmdg d w hmem2
          · intro w hw
            have hw1 : w < st.unique + 1 := hw
            show (dg (fileSector (writeBytesF st.file st.pos
                (st.buf.take st.sectorSize)) base ss w), w) ∈
              (dg (st.buf.take st.sectorSize), st.unique) :: st.m
            rcases Nat.lt_succ_iff_lt_or_eq.mp hw1 with hw2 | hw2
            · rw [hsec_old w hw2]
              exact List.mem_cons_of_mem _ (hinv.hmfull w hw2)
            · rw [hw2, hsec_new]
              exact List.mem_cons_self _ _
          · show (st.table ++ [st.unique]).length =
              (done ++ [st.buf.take st.sectorSize]).length
            rw [List.length_append, List.length_append, hinv.htlen]
            rfl
          · intro x hx
            rcases List.mem_append.mp hx with hx1 | hx2
            · exact hinv.hdlen x hx1
            · rcases List.mem_singleton.mp hx2 with rfl
              exact hslen
          · intro j hj
            simp only [List.length_append, List.length_cons,
              List.length_nil] at hj
            by_cases hjd : j < done.length
            · rcases hinv.htab j hjd with ⟨v0, hv0, hv0lt, hv0s⟩
              refine ⟨v0, ?_, Nat.lt_succ_of_lt hv0lt, ?_⟩
              · show (st.table ++ [st.unique])[j]? = some v0
                rw [List.getElem?_append_left (by rw [hinv.htlen]; omega)]
                exact hv0
              · show fileSector (writeBytesF st.file st.pos
                  (st.buf.take st.sectorSize)) base ss v0 = _
                rw [hsec_old v0 hv0lt, getD_append_left_list done _ j hjd]
                exact hv0s
            · have hje : j = done.length := by omega
              refine ⟨st.unique, ?_, Nat.lt_succ_self st.unique, ?_⟩
              · show (st.table ++ [st.unique])[j]? = some st.unique
                rw [List.getElem?_append_right (by rw [hinv.htlen]; omega)]
                rw [hinv.htlen, hje]
                simp
              · show fileSector (writeBytesF st.file st.pos
                  (st.buf.take st.sectorSize)) base ss st.unique = _
                rw [hje, getD_append_last]
                exact hsec_new
        have hih := ih (st.buf.length - st.sectorSize) (by omega)
          _ (done ++ [st.buf.take st.sectorSize])
          (by simp only [List.length_drop]) hinv2
        rw [hst2]
        refine ⟨?_, ?_, hih.2.2.1, hih.2.2.2.1, ?_⟩
        · rw [hts]
          have hl : (done ++ [st.buf.take st.sectorSize]) ++
              toSectors ss (st.buf.drop st.sectorSize) =
              done ++ st.buf.take st.sectorSize ::
                toSectors ss (st.buf.drop st.sectorSize) := by
            rw [List.append_assoc]
            rfl
          rw [← hl]
          exact hih.1
        · rw [hrem]
          exact hih.2.1
        · intro q hq
          have hms : ss * (st.unique + 1) = ss * st.unique + ss :=
            Nat.mul_succ ss st.unique
          have hlt : q < base + ss * (st.unique + 1) := by omega
          rw [hih.2.2.2.2 q hlt]
          show writeBytesF st.file st.pos (st.buf.take st.sectorSize) q =
            st.file q
          apply writeBytesF_get_left
          rw [hposr]
          omega
    · -- fewer than a sector's worth of bytes: the loop stops
      rw [flushW_stop dg st hc]
      have hcs : ¬(0 < ss ∧ ss ≤ st.buf.length) := by
        rw [← hssr]
        exact hc
      rw [toSectors_stop ss st.buf hcs, List.append_nil,
        sectorsRem_stop ss st.buf hcs]
      exact ⟨hinv, rfl, rfl, rfl, fun q hq => rfl⟩

/-! ## C1 — single-byte reads through the gather loop -/

theorem gatherBytes_zero (f : Nat → Nat) (r : WuxReaderS) (off : Nat) :
    gatherBytes f r 0 off = [] := by
  rw [gatherBytes]
  rw [dif_neg (by omega)]

theorem gatherBytes_one (f : Nat → Nat) (r : WuxReaderS) (off : Nat)
    (hss : 0 < r.sectorSize) :
    gatherBytes f r 1 off =
      [f (r.base + r.table.getD (off / r.sectorSize) 0 * r.sectorSize +
        off % r.sectorSize)] := by
  rw [gatherBytes]
  rw [dif_pos ⟨Nat.one_pos, hss⟩]
  have hlim : min (r.sectorSize - off % r.sectorSize) 1 = 1 := by
    have := Nat.mod_lt off hss
    omega
  simp only [hlim]
  rw [show (1 : Nat) - 1 = 0 from rfl, gatherBytes_zero, List.append_nil]
  rfl

/-- A 1-byte `ReadAt` at an in-range offset serves the byte at
`base + table[off / ss]*ss + off % ss` with no error. -/
theorem wuxReadAt_one (f : Nat → Nat) (r : WuxReaderS) (i : Nat)
    (hss : 0 < r.sectorSize) (hi : i < r.limit) :
    wuxReadAt f r 1 (i : Int) =
      ([f (r.base + r.table.getD (i / r.sectorSize) 0 * r.sectorSize +
        i % r.sectorSize)], none) := by
  unfold wuxReadAt
  rw [if_neg (by omega)]
  simp only [Int.toNat_natCast]
  rw [if_neg (by omega)]
  rw [gatherBytes_one f r i hss]

/-! ## C1 — the full write/close/read round trip -/

/-- General round trip: writing `input` (whose length is a multiple of
the sector size) through a fresh wux writer, closing, and opening the
produced file with the wux reader serves every byte of `input` back,
with no error.  `dg` abstracts the SHA-1 content digest; injectivity is
the content-addressing assumption the format relies on. -/
theorem wux_roundtrip_general {D : Type} [DecidableEq D] (dg : List Nat → D)
    (hdg : Function.Injective dg) (ss size : Nat) (input : List Nat)
    (hss0 : 0x100 ≤ ss) (hss1 : ss < 0x10000000)
    (hlen : input.length = size) (hdvd : ss ∣ size) (hsize64 : size < 2 ^ 64)
    (hN32 : size / ss < 2 ^ 32)
    (hbase : wuxHeaderSize + (size / ss) * 4 ≤
      sectorBase ss ((size + ss - 1) / ss)) :
    ∃ (st : WuxWriterS D) (g : Nat → Nat) (r : WuxReaderS),
      writeW dg (NewWriterM D ss size false) input =
        ((input.length, none), st) ∧
      closeW st = Except.ok g ∧
      NewReaderF g = Except.ok r ∧
      ∀ i, i < size → wuxReadAt g r 1 (i : Int) = ([input.getD i 0], none) := by
  have hss : 0 < ss := by omega
  have hbase' : 32 + (size / ss) * 4 ≤
      sectorBase ss ((size + ss - 1) / ss) := hbase
  have hNN : (size + ss - 1) / ss = size / ss := by
    rcases hdvd with ⟨k, hk⟩
    rw [hk]
    rw [show ss * k + ss - 1 = ss * k + (ss - 1) by omega]
    rw [Nat.mul_add_div hss, Nat.div_eq_of_lt (by omega),
      Nat.mul_div_cancel_left k hss]
    omega
  -- the writer state right after buffering the whole input
  have hinv0 : WInv dg (sectorBase ss ((size + ss - 1) / ss)) ss
      { NewWriterM D ss size false with
        buf := input
        off := 0 + input.length } [] := by
    refine ⟨rfl, rfl, rfl, ?_, Nat.le_refl 0, ?_, ?_, ?_, rfl, ?_, ?_⟩
    · show sectorBase ss ((size + ss - 1) / ss) =
        sectorBase ss ((size + ss - 1) / ss) + ss * 0
      omega
    · intro d v hmem
      exact absurd hmem (List.not_mem_nil _)
    · intro d v hmem
      exact absurd hmem (List.not_mem_nil _)
    · intro v hv
      exact absurd hv (Nat.not_lt_zero v)
    · intro s hs
      exact absurd hs (List.not_mem_nil _)
    · intro j hj
      exact absurd hj (Nat.not_lt_zero j)
  have hfl := flushW_inv dg hdg (sectorBase ss ((size + ss - 1) / ss)) ss hss
    input.length
    { NewWriterM D ss size false with
      buf := input
      off := 0 + input.length } [] rfl hinv0
  set stf := flushW dg
    { NewWriterM D ss size false with
      buf := input
      off := 0 + input.length } with hstf
  have hWf : WInv dg (sectorBase ss ((size + ss - 1) / ss)) ss stf
      (toSectors ss input) := hfl.1
  have hw : writeW dg (NewWriterM D ss size false) input =
      ((input.length, none), stf) := by
    rw [hstf]
    show ((input.length, (flushW dg
      { NewWriterM D ss size false with
        buf := input
        off := 0 + input.length }).err), flushW dg
      { NewWriterM D ss size false with
        buf := input
        off := 0 + input.length }) = _
    rw [← hstf, hWf.herr]
  have hbuff : stf.buf = [] := by
    have h : stf.buf = sectorsRem ss input := hfl.2.1
    rw [h]
    exact sectorsRem_nil_of_dvd ss hss input.length input rfl
      (by rw [hlen]; exact hdvd)
  have hofff : stf.off = 0 + input.length := hfl.2.2.1
  have hlimf : stf.limit = size := hfl.2.2.2.1
  have hpres : ∀ q, q < sectorBase ss ((size + ss - 1) / ss) →
      stf.file q = wuxHeaderFile ss size q := by
    intro q hq
    have h := hfl.2.2.2.2 q (by
      show q < sectorBase ss ((size + ss - 1) / ss) + ss * 0
      omega)
    exact h
  -- Close writes the table and returns the final file
  have hclose : closeW stf =
      Except.ok (writeBytesF stf.file wuxHeaderSize (tableBytes stf.table)) := by
    unfold closeW
    rw [hWf.herr]
    show (if stf.buf.length ≠ 0 ∨ stf.off ≠ stf.limit then
        Except.error "wux: not enough data written"
      else if stf.broken = true then Except.error "wux: write error"
      else Except.ok (writeBytesF stf.file wuxHeaderSize
        (tableBytes stf.table))) = _
    rw [if_neg (by
      rw [hbuff, hofff, hlimf]
      simp [hlen])]
    rw [hWf.hbroken, if_neg (by simp)]
  have htlen2 : stf.table.length = size / ss := by
    rw [hWf.htlen, toSectors_length ss hss input.length input rfl, hlen]
  have hentry : ∀ j, j < stf.table.length → stf.table.getD j 0 < 2 ^ 32 := by
    intro j hj
    have hj2 : j < (toSectors ss input).length := by
      rw [← hWf.htlen]
      exact hj
    rcases hWf.htab j hj2 with ⟨v, hv, hvlt, -⟩
    rw [List.getD_eq_getElem?_getD, hv]
    have h1 : stf.unique ≤ stf.table.length := hWf.huniq
    have h2 : stf.table.length = size / ss := htlen2
    show v < 2 ^ 32
    omega
  -- Header fields read back from the closed file
  have hm0 : readU32LE (writeBytesF stf.file wuxHeaderSize
      (tableBytes stf.table)) 0 = wuxMagic0 := by
    rw [readU32LE_write_left _ _ _ _ (by decide)]
    rw [readU32LE_congr stf.file (wuxHeaderFile ss size) 0
      (fun j hj => hpres (0 + j) (by omega))]
    exact wuxHeaderFile_magic0 ss size
  have hm1 : readU32LE (writeBytesF stf.file wuxHeaderSize
      (tableBytes stf.table)) 4 = wuxMagic1 := by
    rw [readU32LE_write_left _ _ _ _ (by decide)]
    rw [readU32LE_congr stf.file (wuxHeaderFile ss size) 4
      (fun j hj => hpres (4 + j) (by omega))]
    exact wuxHeaderFile_magic1 ss size
  have hm2 : readU32LE (writeBytesF stf.file wuxHeaderSize
      (tableBytes stf.table)) 8 = ss := by
    rw [readU32LE_write_left _ _ _ _ (by decide)]
    rw [readU32LE_congr stf.file (wuxHeaderFile ss size) 8
      (fun j hj => hpres (8 + j) (by omega))]
    exact wuxHeaderFile_sectorSize ss size (by omega)
  have hm3 : readU64LE (writeBytesF stf.file wuxHeaderSize
      (tableBytes stf.table)) 16 = size := by
    rw [readU64LE_write_left _ _ _ _ (by decide)]
    rw [readU64LE_congr stf.file (wuxHeaderFile ss size) 16
      (fun j hj => hpres (16 + j) (by omega))]
    exact wuxHeaderFile_size ss size hsize64
  -- The table read back equals the writer's table
  have htabeq : (List.range ((size + ss - 1) / ss)).map
      (fun i => readU32LE (writeBytesF stf.file wuxHeaderSize
        (tableBytes stf.table)) (wuxHeaderSize + 4 * i)) = stf.table := by
    apply List.ext_getElem?
    intro i
    rw [List.getElem?_map]
    by_cases hi : i < (size + ss - 1) / ss
    · rw [List.getElem?_range hi]
      have hil : i < stf.table.length := by
        rw [htlen2]
        omega
      show some (readU32LE (writeBytesF stf.file wuxHeaderSize
        (tableBytes stf.table)) (wuxHeaderSize + 4 * i)) = stf.table[i]?
      rw [readU32LE_table stf.file stf.table i hil (hentry i hil)]
      rw [List.getD_eq_getElem?_getD]
      cases hx : stf.table[i]? with
      | none =>
        rw [List.getElem?_eq_none_iff] at hx
        omega
      | some v =>
        rfl
    · rw [List.getElem?_eq_none (by rw [List.length_range]; omega)]
      rw [List.getElem?_eq_none (by rw [htlen2]; omega)]
      rfl
  -- The reader reconstructs the written header and table
  have hNr : NewReaderF (writeBytesF stf.file wuxHeaderSize
      (tableBytes stf.table)) = Except.ok
      { base := sectorBase ss ((size + ss - 1) / ss)
        limit := size
        sectorSize := ss
        table := stf.table } := by
    unfold NewReaderF
    simp only [hm0, hm1, hm2, hm3]
    rw [if_pos (by constructor <;> trivial), if_neg (by omega)]
    rw [htabeq]
  refine ⟨stf, writeBytesF stf.file wuxHeaderSize (tableBytes stf.table),
    { base := sectorBase ss ((size + ss - 1) / ss)
      limit := size
      sectorSize := ss
      table := stf.table }, hw, hclose, hNr, ?_⟩
  intro i hi
  rw [wuxReadAt_one _ _ i hss hi]
  have hj : i / ss < (toSectors ss input).length := by
    rw [toSectors_length ss hss input.length input rfl, hlen]
    exact Nat.div_lt_div_of_lt_of_dvd hdvd hi
  rcases hWf.htab (i / ss) hj with ⟨v, hv, hvlt, hvsec⟩
  have hgetv : stf.table.getD (i / ss) 0 = v := by
    rw [List.getD_eq_getElem?_getD, hv]
    rfl
  have hmod : i % ss < ss := Nat.mod_lt i hss
  have hbytes : writeBytesF stf.file wuxHeaderSize (tableBytes stf.table)
      (sectorBase ss ((size + ss - 1) / ss) +
        stf.table.getD (i / ss) 0 * ss + i % ss) = input.getD i 0 := by
    rw [hgetv]
    have hq : writeBytesF stf.file wuxHeaderSize (tableBytes stf.table)
        (sectorBase ss ((size + ss - 1) / ss) + v * ss + i % ss) =
        stf.file (sectorBase ss ((size + ss - 1) / ss) + v * ss + i % ss) := by
      apply writeBytesF_get_right
      rw [tableBytes_length, htlen2]
      show 32 + 4 * (size / ss) ≤ _
      omega
    rw [hq]
    have hfs : stf.file
        (sectorBase ss ((size + ss - 1) / ss) + v * ss + i % ss) =
        (fileSector stf.file (sectorBase ss ((size + ss - 1) / ss)) ss v).getD
          (i % ss) 0 := by
      rw [fileSector_getD _ _ _ _ _ hmod]
    rw [hfs, hvsec]
    have hchunk : (toSectors ss input).getD (i / ss) [] =
        (input.drop (ss * (i / ss))).take ss := by
      apply toSectors_getD ss hss
      have h1 : i / ss + 1 ≤ size / ss := by
        have := Nat.div_lt_div_of_lt_of_dvd hdvd hi
        omega
      have h2 : ss * (i / ss + 1) ≤ ss * (size / ss) :=
        Nat.mul_le_mul_left ss h1
      have h3 : ss * (size / ss) = size := Nat.mul_div_cancel' hdvd
      omega
    rw [hchunk]
    rw [List.getD_eq_getElem?_getD, List.getElem?_take, if_pos hmod,
      List.getElem?_drop]
    rw [show ss * (i / ss) + i % ss = i from Nat.div_add_mod i ss]
    rw [← List.getD_eq_getElem?_getD]
  show (([writeBytesF stf.file wuxHeaderSize (tableBytes stf.table)
      (sectorBase ss ((size + ss - 1) / ss) +
        stf.table.getD (i / ss) 0 * ss + i % ss)], none) :
      List Nat × Option String) = ([input.getD i 0], none)
  rw [hbytes]

/-- C1: for every input stream of length exactly `UNCOMPRESSED_SIZE`
written through the wux writer (`NewWriter` with `SectorSize` and
`UncompressedSize`, then `Write` of all bytes, then `Close`), opening
the resulting file with the wux reader and reading every offset
`0..UNCOMPRESSED_SIZE-1` yields the original input byte-for-byte.
The digest `dg` abstracts `crypto/sha1` and is assumed injective: the
content-addressing assumption the format is built on. -/
theorem claim_C1_wux_roundtrip {D : Type} [DecidableEq D] (dg : List Nat → D)
    (hdg : Function.Injective dg) (input : List Nat)
    (hlen : input.length = UNCOMPRESSED_SIZE) :
    ∃ (st : WuxWriterS D) (g : Nat → Nat) (r : WuxReaderS),
      writeW dg (NewWriterM D SECTOR_SIZE UNCOMPRESSED_SIZE false) input =
        ((input.length, none), st) ∧
      closeW st = Except.ok g ∧
      NewReaderF g = Except.ok r ∧
      ∀ i, i < UNCOMPRESSED_SIZE →
        wuxReadAt g r 1 (i : Int) = ([input.getD i 0], none) :=
  wux_roundtrip_general dg hdg SECTOR_SIZE UNCOMPRESSED_SIZE input
    (by decide) (by decide) hlen (by decide) (by decide) (by decide)
    (by decide)

theorem claim_C1_wux_roundtrip_witness :
    Function.Injective (fun l : List Nat => l) ∧
      (List.replicate UNCOMPRESSED_SIZE 0).length = UNCOMPRESSED_SIZE ∧
      ∃ (st : WuxWriterS (List Nat)) (g : Nat → Nat) (r : WuxReaderS),
        writeW (fun l : List Nat => l)
            (NewWriterM (List Nat) SECTOR_SIZE UNCOMPRESSED_SIZE false)
            (List.replicate UNCOMPRESSED_SIZE 0) =
          (((List.replicate UNCOMPRESSED_SIZE 0).length, none), st) ∧
        closeW st = Except.ok g ∧
        NewReaderF g = Except.ok r ∧
        ∀ i, i < UNCOMPRESSED_SIZE →
          wuxReadAt g r 1 (i : Int) =
            ([(List.replicate UNCOMPRESSED_SIZE 0).getD i 0], none) :=
  ⟨fun a b h => h, List.length_replicate UNCOMPRESSED_SIZE 0,
    claim_C1_wux_roundtrip (fun l : List Nat => l) (fun a b h => h)
      (List.replicate UNCOMPRESSED_SIZE 0)
      (List.length_replicate UNCOMPRESSED_SIZE 0)⟩

end Wud
